import Mathlib

/-!
Verification development for `generate_feed.py`, the single-file Reddit
outbound-link feed generator.  Python strings are modelled as `List Char`
(`Str`); the parts of the Python standard library that the source relies on
(`str` methods, `urllib.parse`, `html.unescape`, `re` scans for the fixed
patterns of the source, `hashlib.sha256`) are embedded as executable Lean
functions, and every function of the source that the claims touch is
translated on top of them.  Network effects (HTTP fetching) are represented
by passing the already-fetched response data as an explicit argument.
-/

namespace Feed

/-- Python strings are modelled as lists of unicode scalar values.  (Lean
`Char` carries exactly the valid scalar values; lone surrogates, which CPython
can hold but never produces in this pipeline, are out of scope.) -/
abbrev Str := List Char

/-- Coerce a Lean string literal to the model type. -/
def str (s : String) : Str := s.data

/-- The set of characters stripped by Python `str.strip()` with no argument
and matched by `re`'s `\s` on `str` patterns (checked against CPython 3.11:
the two sets coincide). -/
def isPySpace (c : Char) : Bool :=
  let n := c.toNat
  (9 ≤ n && n ≤ 13) || (28 ≤ n && n ≤ 31) || n = 32 || n = 0x85 || n = 0xa0 ||
  n = 0x1680 || (0x2000 ≤ n && n ≤ 0x200a) || n = 0x2028 || n = 0x2029 ||
  n = 0x202f || n = 0x205f || n = 0x3000

/-- Drop the longest suffix whose characters all satisfy `p`
(Python `str.rstrip` with the character class `p`). -/
def dropTrailing (p : Char → Bool) (l : Str) : Str :=
  ((l.reverse).dropWhile p).reverse

/-- Python `str.strip()` (no argument): remove leading and trailing
whitespace. -/
def pyStrip (l : Str) : Str :=
  dropTrailing isPySpace (l.dropWhile isPySpace)

/-- The trailing-punctuation class of `normalize_url`'s
`raw.strip().rstrip(').,]>"\'')`. -/
def RSTRIP_PUNCT : List Char := [')', '.', ',', ']', '>', '"', Char.ofNat 39]

/-- `raw.strip().rstrip(').,]>"\'')` — the trimming head of `normalize_url`. -/
def pyTrim (l : Str) : Str :=
  dropTrailing (fun c => c ∈ RSTRIP_PUNCT) (pyStrip l)

/-- ASCII lower-casing of one character.  Python `str.lower()` performs the
full Unicode case map; on every character that can influence the ASCII host,
scheme and keyword comparisons of this program the two maps agree. -/
def asciiLower (c : Char) : Char :=
  if 'A' ≤ c && c ≤ 'Z' then Char.ofNat (c.toNat + 32) else c

/-- `str.lower()` (ASCII fragment, see `asciiLower`). -/
def lowerStr (l : Str) : Str := l.map asciiLower

def isAsciiAlpha (c : Char) : Bool :=
  ('a' ≤ c && c ≤ 'z') || ('A' ≤ c && c ≤ 'Z')

def isAsciiDigit (c : Char) : Bool := '0' ≤ c && c ≤ '9'

def isAsciiAlnum (c : Char) : Bool := isAsciiAlpha c || isAsciiDigit c

def isAsciiChar (c : Char) : Bool := c.toNat ≤ 0x7f

def isHexDigitChar (c : Char) : Bool :=
  isAsciiDigit c || ('a' ≤ c && c ≤ 'f') || ('A' ≤ c && c ≤ 'F')

/-- Numeric value of a hexadecimal digit character. -/
def hexVal (c : Char) : Nat :=
  if isAsciiDigit c then c.toNat - '0'.toNat
  else if 'a' ≤ c && c ≤ 'f' then c.toNat - 'a'.toNat + 10
  else if 'A' ≤ c && c ≤ 'F' then c.toNat - 'A'.toNat + 10
  else 0

/-- Upper-case hexadecimal digit for a value below 16 (as `urllib.parse.quote`
emits). -/
def hexDigitU (n : Nat) : Char :=
  if n < 10 then Char.ofNat ('0'.toNat + n) else Char.ofNat ('A'.toNat + n - 10)

/-- Split a list at the first occurrence of `c`: returns the part before and
the part after (Python `s.split(c, 1)` when `c` occurs). -/
def splitFirst? (c : Char) : Str → Option (Str × Str)
  | [] => none
  | x :: xs =>
    if x = c then some ([], xs)
    else match splitFirst? c xs with
      | none => none
      | some (a, b) => some (x :: a, b)

/-- Python `s.split(c)`: split at every occurrence of `c`. -/
def splitAll (c : Char) : Str → List Str
  | [] => [[]]
  | x :: xs =>
    if x = c then [] :: splitAll c xs
    else match splitAll c xs with
      | [] => [[x]]
      | a :: rest => (x :: a) :: rest

/-- Python `str.replace(a, b)` for single characters. -/
def replaceChar (a b : Char) (l : Str) : Str :=
  l.map (fun c => if c = a then b else c)

/-- Python `sub in s` for a literal substring: `needle` occurs contiguously
in `hay`. -/
def containsSub (hay needle : Str) : Bool :=
  match hay with
  | [] => needle = []
  | _ :: t => needle.isPrefixOf hay || containsSub t needle

/-- Python `s.endswith(suffix)`. -/
def endsWithStr (l suffix : Str) : Bool :=
  suffix.isSuffixOf l

/-- `", ".join(parts)`-style joining. -/
def joinWith (sep : Str) : List Str → Str
  | [] => []
  | [x] => x
  | x :: xs => x ++ sep ++ joinWith sep xs

/-- Insert into a Python `set` modelled as a duplicate-free list that
remembers first-insertion order. -/
def insertNew (l : List Str) (x : Str) : List Str :=
  if x ∈ l then l else l ++ [x]

/-! ### UTF-8 and percent-coding (`urllib.parse.quote` / `unquote` family) -/

/-- UTF-8 encoding of one scalar value, as a list of byte values. -/
def utf8EncodeChar (c : Char) : List Nat :=
  let v := c.toNat
  if v < 0x80 then [v]
  else if v < 0x800 then [0xc0 + v / 64, 0x80 + v % 64]
  else if v < 0x10000 then
    [0xe0 + v / 4096, 0x80 + (v / 64) % 64, 0x80 + v % 64]
  else
    [0xf0 + v / 262144, 0x80 + (v / 4096) % 64, 0x80 + (v / 64) % 64, 0x80 + v % 64]

/-- `s.encode('utf-8')`. -/
def utf8Encode (l : Str) : List Nat := l.flatMap utf8EncodeChar

/-- The U+FFFD replacement character. -/
def fffd : Char := Char.ofNat 0xfffd

/-- Is `b` a UTF-8 continuation byte? -/
def isCont (b : Nat) : Bool := 0x80 ≤ b && b ≤ 0xbf

/-- `bytes.decode('utf-8', errors='replace')`: the incremental UTF-8 decoder
with one replacement character per maximal invalid subpart, as CPython
implements it. -/
def utf8Decode : List Nat → Str
  | [] => []
  | b :: rest =>
    if b < 0x80 then Char.ofNat b :: utf8Decode rest
    else if b < 0xc2 then fffd :: utf8Decode rest
    else if b ≤ 0xdf then
      match rest with
      | [] => [fffd]
      | b2 :: rest2 =>
        if isCont b2 then Char.ofNat ((b - 0xc0) * 64 + (b2 - 0x80)) :: utf8Decode rest2
        else fffd :: utf8Decode (b2 :: rest2)
    else if b ≤ 0xef then
      let lo2 := if b = 0xe0 then 0xa0 else 0x80
      let hi2 := if b = 0xed then 0x9f else 0xbf
      match rest with
      | [] => [fffd]
      | b2 :: rest2 =>
        if lo2 ≤ b2 && b2 ≤ hi2 then
          match rest2 with
          | [] => [fffd]
          | b3 :: rest3 =>
            if isCont b3 then
              Char.ofNat ((b - 0xe0) * 4096 + (b2 - 0x80) * 64 + (b3 - 0x80)) ::
                utf8Decode rest3
            else fffd :: utf8Decode (b3 :: rest3)
        else fffd :: utf8Decode (b2 :: rest2)
    else if b ≤ 0xf4 then
      let lo2 := if b = 0xf0 then 0x90 else 0x80
      let hi2 := if b = 0xf4 then 0x8f else 0xbf
      match rest with
      | [] => [fffd]
      | b2 :: rest2 =>
        if lo2 ≤ b2 && b2 ≤ hi2 then
          match rest2 with
          | [] => [fffd]
          | b3 :: rest3 =>
            if isCont b3 then
              match rest3 with
              | [] => [fffd]
              | b4 :: rest4 =>
                if isCont b4 then
                  Char.ofNat ((b - 0xf0) * 262144 + (b2 - 0x80) * 4096 +
                        (b3 - 0x80) * 64 + (b4 - 0x80)) :: utf8Decode rest4
                else fffd :: utf8Decode (b4 :: rest4)
            else fffd :: utf8Decode (b3 :: rest3)
        else fffd :: utf8Decode (b2 :: rest2)
    else fffd :: utf8Decode rest

/-- `urllib.parse.unquote_to_bytes`: each `%` followed by two hex digits
becomes one byte, everything else passes through as its own byte value.
Defined on ASCII segments, where each character is one byte. -/
def unquoteToBytes : Str → List Nat
  | [] => []
  | '%' :: c1 :: c2 :: rest =>
    if isHexDigitChar c1 && isHexDigitChar c2 then
      (hexVal c1 * 16 + hexVal c2) :: unquoteToBytes rest
    else '%'.toNat :: unquoteToBytes (c1 :: c2 :: rest)
  | c :: rest => c.toNat :: unquoteToBytes rest

/-- One step of `unquote`'s ASCII-run chunking (`_asciire.split`): percent-
decode each maximal run of ASCII characters as a byte chunk, pass non-ASCII
characters through.  `fuel` bounds the recursion by the input length. -/
def unquoteChunks (fuel : Nat) (l : Str) : Str :=
  match fuel, l with
  | 0, _ => []
  | _, [] => []
  | fuel + 1, l =>
    let a := l.takeWhile isAsciiChar
    match a with
    | [] =>
      match l with
      | [] => []
      | c :: rest => c :: unquoteChunks fuel rest
    | _ :: _ =>
      utf8Decode (unquoteToBytes a) ++ unquoteChunks fuel (l.dropWhile isAsciiChar)

/-- `urllib.parse.unquote(s, encoding='utf-8', errors='replace')`. -/
def unquote (l : Str) : Str :=
  if '%' ∈ l then unquoteChunks l.length l else l

/-- The characters `urllib.parse.quote` never escapes
(`_ALWAYS_SAFE`: letters, digits, `_.-~`). -/
def isAlwaysSafe (c : Char) : Bool :=
  isAsciiAlnum c || c = '_' || c = '.' || c = '-' || c = '~'

/-- `urllib.parse.quote(s, safe)` restricted to byte input: keep always-safe
bytes and bytes in `safe`, escape the rest as `%XX` (upper-case hex). -/
def quoteBytes (safe : List Char) (bs : List Nat) : Str :=
  bs.flatMap fun b =>
    let c := Char.ofNat b
    if b ≤ 0x7f && (isAlwaysSafe c || c ∈ safe) then [c]
    else ['%', hexDigitU (b / 16), hexDigitU (b % 16)]

/-- `urllib.parse.quote(s, safe)`: percent-encode the UTF-8 bytes of `s`. -/
def pyQuote (safe : List Char) (l : Str) : Str :=
  quoteBytes safe (utf8Encode l)

/-- `urllib.parse.quote_plus(s, safe='')`. -/
def quote_plus (l : Str) : Str :=
  if ' ' ∈ l then replaceChar ' ' '+' (pyQuote [' '] l)
  else pyQuote [] l

/-- `urllib.parse.urlencode(q)` on an association list of already-string
pairs (the default `quote_via=quote_plus`, `safe=''`). -/
def urlencode (q : List (Str × Str)) : Str :=
  joinWith ['&'] (q.map fun kv => quote_plus kv.1 ++ '=' :: quote_plus kv.2)

/-- The field decoder of `parse_qsl`: `'+'` to space, then `unquote` with
`errors='replace'`. -/
def qslDecode (l : Str) : Str := unquote (replaceChar '+' ' ' l)

/-- `urllib.parse.parse_qsl(qs, keep_blank_values=keepBlank)` with the modern
default separator `'&'`: empty fields are dropped; a field without `'='`
yields a blank value when `keepBlank` and is dropped otherwise; names and
values are plus/percent-decoded. -/
def parse_qsl (keepBlank : Bool) (qs : Str) : List (Str × Str) :=
  (splitAll '&' qs).foldr
    (fun field acc =>
      match field with
      | [] => acc
      | _ =>
        match splitFirst? '=' field with
        | some (nm, v) =>
          if v ≠ [] || keepBlank then (qslDecode nm, qslDecode v) :: acc else acc
        | none =>
          if keepBlank then (qslDecode field, []) :: acc else acc)
    []

/-! ### `urllib.parse.urlparse` and `urlunparse` (CPython 3.11 semantics) -/

/-- Digits-to-`Nat` (for IPv4 octets). -/
def natOfDigits (l : Str) : Nat := l.foldl (fun a c => a * 10 + (c.toNat - 48)) 0

/-- One octet of `ipaddress.IPv4Address`: ASCII digits only, at most three of
them, no leading zero, value at most 255. -/
def isIPv4Octet (p : Str) : Bool :=
  p ≠ [] && p.all isAsciiDigit && p.length ≤ 3 &&
  (p = ['0'] || p.head? ≠ some '0') && natOfDigits p ≤ 255

/-- `ipaddress.IPv4Address` acceptance on a dotted-quad string. -/
def isIPv4 (s : Str) : Bool :=
  let ps := splitAll '.' s
  ps.length = 4 && ps.all isIPv4Octet

/-- A valid IPv6 hextet: one to four hex digits. -/
def isHextet (p : Str) : Bool :=
  p ≠ [] && p.length ≤ 4 && p.all isHexDigitChar

/-- `ipaddress.IPv6Address` acceptance on the part before any zone id,
following `_ip_int_from_string`: split on `':'`, optionally replace a final
dotted-quad by two hextets, then check the `'::'` compression rules. -/
def isIPv6Core (addr : Str) : Bool :=
  let parts0 := splitAll ':' addr
  if parts0.length < 3 then false
  else
    match parts0.reverse with
    | [] => false
    | last :: revInit =>
      let swapped : Option (List Str) :=
        if '.' ∈ last then
          if isIPv4 last then some (revInit.reverse ++ [['0'], ['0']]) else none
        else some parts0
      match swapped with
      | none => false
      | some parts =>
        let n := parts.length
        if n > 9 then false
        else
          let emptyMid := (List.range n).filter fun j =>
            1 ≤ j && j ≤ n - 2 && parts.getD j [' '] = []
          match emptyMid with
          | [] =>
            n = 8 && parts.all isHextet
          | [i] =>
            let p0 := parts.getD 0 [' ']
            let pl := parts.getD (n - 1) [' ']
            let hi : Option Nat :=
              if p0 = [] then (if i = 1 then some 0 else none) else some i
            let lo : Option Nat :=
              if pl = [] then (if i = n - 2 then some 0 else none)
              else some (n - i - 1)
            match hi, lo with
            | some h, some l =>
              h + l ≤ 7 &&
              ((List.range n).all fun j =>
                j = i || (p0 = [] && j = 0) || (pl = [] && j = n - 1) ||
                  isHextet (parts.getD j [' ']))
            | _, _ => false
          | _ => false

/-- `ipaddress.IPv6Address` acceptance including an optional nonempty
`%zone` suffix. -/
def isIPv6 (s : Str) : Bool :=
  match splitFirst? '%' s with
  | none => isIPv6Core s
  | some (addr, zone) => zone ≠ [] && '%' ∉ zone && isIPv6Core addr

/-- The `IPvFuture` shape `urllib` accepts for a bracketed host starting with
`'v'`: the pattern `v[a-fA-F0-9]+\..+` anchored at both ends. -/
def ipvFutureOk (h : Str) : Bool :=
  match h with
  | 'v' :: rest =>
    let hexs := rest.takeWhile isHexDigitChar
    let rest2 := rest.dropWhile isHexDigitChar
    hexs ≠ [] &&
      (match rest2 with
       | '.' :: tail => tail ≠ [] && Char.ofNat 10 ∉ tail
       | _ => false)
  | _ => false

/-- `urllib.parse._check_bracketed_host`: `v...` must be an IPvFuture
address; otherwise the host must be a valid IPv6 (not IPv4) address. -/
def checkBracketedHost (h : Str) : Bool :=
  match h with
  | 'v' :: _ => ipvFutureOk h
  | _ => if isIPv4 h then false else isIPv6 h

/-- `netloc.partition('[')[2].partition(']')[0]`. -/
def bracketedHost (n : Str) : Str :=
  match splitFirst? '[' n with
  | none => []
  | some (_, aft) =>
    match splitFirst? ']' aft with
    | none => aft
    | some (bef, _) => bef

/-- The bracket validation `urlsplit` performs on a netloc; `false` models
the `ValueError` branches.  (`_checknetloc`'s NFKC confusable check, which
can only fire on certain non-ASCII netlocs, is modelled as accepting.) -/
def netlocOk (n : Str) : Bool :=
  match decide ('[' ∈ n), decide (']' ∈ n) with
  | true, true => checkBracketedHost (bracketedHost n)
  | false, false => true
  | _, _ => false

/-- Characters `urlsplit` removes from the URL before parsing
(`_UNSAFE_URL_BYTES_TO_REMOVE`: tab, carriage return, newline). -/
def UNSAFE_CHARS : List Char := [Char.ofNat 9, Char.ofNat 13, Char.ofNat 10]

def removeUnsafe (l : Str) : Str := l.filter (fun c => !(c ∈ UNSAFE_CHARS : Bool))

/-- `scheme_chars`: letters, digits and `+-.`. -/
def schemeChar (c : Char) : Bool := isAsciiAlnum c || c = '+' || c = '-' || c = '.'

/-- Scheme recognition of `urlsplit`: a leading ASCII letter followed by
scheme characters up to the first `':'`; the scheme is lower-cased, otherwise
the URL is left whole. -/
def splitScheme (u : Str) : Str × Str :=
  match splitFirst? ':' u with
  | none => ([], u)
  | some (bef, aft) =>
    match bef with
    | [] => ([], u)
    | c0 :: rest =>
      if isAsciiAlpha c0 && rest.all schemeChar then (lowerStr bef, aft)
      else ([], u)

def netlocDelim (c : Char) : Bool := c = '/' || c = '?' || c = '#'

structure SplitResult where
  scheme : Str
  netloc : Str
  path : Str
  query : Str
  fragment : Str
deriving Repr, DecidableEq

/-- `urllib.parse.urlsplit` (with `allow_fragments=True`); `Except.error`
models its `ValueError`s. -/
def urlsplitE (url0 : Str) : Except Unit SplitResult :=
  let url1 := removeUnsafe url0
  let (scheme, url2) := splitScheme url1
  let netlocStep : Except Unit (Str × Str) :=
    if url2.take 2 = str "//" then
      let netloc := (url2.drop 2).takeWhile (fun c => !netlocDelim c)
      let rest := (url2.drop 2).dropWhile (fun c => !netlocDelim c)
      if netlocOk netloc then .ok (netloc, rest) else .error ()
    else .ok ([], url2)
  match netlocStep with
  | .error e => .error e
  | .ok (netloc, url3) =>
    let (url4, fragment) :=
      match splitFirst? '#' url3 with
      | none => (url3, [])
      | some (a, b) => (a, b)
    let (url5, query) :=
      match splitFirst? '?' url4 with
      | none => (url4, [])
      | some (a, b) => (a, b)
    .ok ⟨scheme, netloc, url5, query, fragment⟩

/-- `urllib.parse._splitparams`: split the path at the first `';'` that
follows the last `'/'` (or anywhere when there is no `'/'`). -/
def splitparams (p : Str) : Str × Str :=
  if '/' ∈ p then
    let afterSlash := (p.reverse.takeWhile (fun c => c ≠ '/')).reverse
    let beforePart := p.take (p.length - afterSlash.length)
    match splitFirst? ';' afterSlash with
    | none => (p, [])
    | some (b1, b2) => (beforePart ++ b1, b2)
  else
    match splitFirst? ';' p with
    | none => (p, [])
    | some (a, b) => (a, b)

/-- `urllib.parse.uses_params` (CPython 3.11). -/
def USES_PARAMS : List Str :=
  [str "", str "ftp", str "hdl", str "prospero", str "http", str "imap",
   str "https", str "shttp", str "rtsp", str "rtsps", str "rtspu", str "sip",
   str "sips", str "mms", str "sftp", str "tel"]

structure ParseResult where
  scheme : Str
  netloc : Str
  path : Str
  params : Str
  query : Str
  fragment : Str
deriving Repr, DecidableEq

/-- `urllib.parse.urlparse`. -/
def urlparseE (u : Str) : Except Unit ParseResult :=
  match urlsplitE u with
  | .error e => .error e
  | .ok r =>
    if r.scheme ∈ USES_PARAMS && ';' ∈ r.path then
      let pp := splitparams r.path
      .ok ⟨r.scheme, r.netloc, pp.1, pp.2, r.query, r.fragment⟩
    else .ok ⟨r.scheme, r.netloc, r.path, [], r.query, r.fragment⟩

/-- `urllib.parse.urlunsplit`. -/
def urlunsplit (scheme netloc url query fragment : Str) : Str :=
  let url :=
    if netloc ≠ [] || url.take 2 = str "//" then
      str "//" ++ netloc ++
        (if url ≠ [] && url.head? ≠ some '/' then '/' :: url else url)
    else url
  let url := if scheme ≠ [] then scheme ++ ':' :: url else url
  let url := if query ≠ [] then url ++ '?' :: query else url
  if fragment ≠ [] then url ++ '#' :: fragment else url

/-- `urllib.parse.urlunparse`, i.e. `ParseResult.geturl` after `_replace`. -/
def urlunparse (scheme netloc path params query fragment : Str) : Str :=
  urlunsplit scheme netloc
    (if params ≠ [] then path ++ ';' :: params else path) query fragment

/-! ### Configuration tables of `generate_feed.py` -/

/-- `DROP_QUERY_KEYS`. -/
def DROP_QUERY_KEYS : List Str :=
  [str "utm_source", str "utm_medium", str "utm_campaign", str "utm_term",
   str "utm_content", str "gclid", str "fbclid", str "mc_cid", str "mc_eid"]

/-- `REDDIT_HOSTS`. -/
def REDDIT_HOSTS : List Str :=
  [str "reddit.com", str "www.reddit.com", str "old.reddit.com",
   str "redd.it", str "i.redd.it", str "v.redd.it", str "preview.redd.it",
   str "external-preview.redd.it", str "redditmedia.com",
   str "www.redditmedia.com", str "b.thumbs.redditmedia.com"]

/-- `BLOCKED_HOST_SUFFIXES`. -/
def BLOCKED_HOST_SUFFIXES : List Str :=
  [str "youtube.com", str "youtu.be", str "tiktok.com", str "instagram.com",
   str "x.com", str "twitter.com", str "facebook.com", str "fb.com",
   str "discord.gg", str "discord.com", str "docs.google.com",
   str "drive.google.com", str "forms.gle"]

/-- `BLOCKED_EXTENSIONS`. -/
def BLOCKED_EXTENSIONS : List Str :=
  [str ".jpg", str ".jpeg", str ".png", str ".gif", str ".webp", str ".svg",
   str ".mp4", str ".mov", str ".m4v", str ".avi", str ".pdf", str ".ppt",
   str ".pptx", str ".doc", str ".docx", str ".xls", str ".xlsx", str ".zip",
   str ".rar", str ".7z"]

/-- `MAX_ITEMS`. -/
def MAX_ITEMS : Nat := 250

/-! ### `normalize_url` and the URL helpers of the source -/

/-- `normalize_url(raw)`: trim, parse, drop tracking query keys, re-encode
the query, coerce `http` to `https`, reassemble; on a parse failure or a URL
without scheme or netloc, return the trimmed input. -/
def normalize_url (raw0 : Str) : Str :=
  let raw := pyTrim raw0
  match urlparseE raw with
  | .error _ => raw
  | .ok p =>
    if p.scheme = [] || p.netloc = [] then raw
    else
      let q := (parse_qsl true p.query).filter fun kv =>
        !(kv.1 ∈ DROP_QUERY_KEYS : Bool)
      let scheme :=
        if p.scheme = str "http" || p.scheme = str "https" then str "https"
        else p.scheme
      urlunparse scheme p.netloc p.path p.params (urlencode q) p.fragment

/-- `is_reddit_host(url)`: the lower-cased netloc is one of `REDDIT_HOSTS`
or ends in `.reddit.com`; parse failures yield `False`. -/
def is_reddit_host (url : Str) : Bool :=
  match urlparseE url with
  | .error _ => false
  | .ok p =>
    let host := lowerStr p.netloc
    host ∈ REDDIT_HOSTS || endsWithStr host (str ".reddit.com")

/-- Last-binding lookup of a key in an association list
(`dict(parse_qsl(...))[k]`: later duplicates win). -/
def lookupLast (k : Str) (l : List (Str × Str)) : Option Str :=
  l.foldl (fun acc kv => if kv.1 = k then some kv.2 else acc) none

/-- `unwrap_reddit_media(url)`: rewrite
`https://…reddit.com/media?url=ENCODED` to the normalized decoded target;
anything else (including parse failures) passes through. -/
def unwrap_reddit_media (url : Str) : Str :=
  match urlparseE url with
  | .error _ => url
  | .ok p =>
    if endsWithStr (lowerStr p.netloc) (str "reddit.com") && p.path = str "/media" then
      match lookupLast (str "url") (parse_qsl false p.query) with
      | some v => if v ≠ [] then normalize_url (unquote v) else url
      | none => url
    else url

/-- The blocked-host loop of `looks_like_news_or_blog_url`:
`host == suf or host.endswith("." + suf)` for some blocked suffix. -/
def hostBlocked (host : Str) : Bool :=
  BLOCKED_HOST_SUFFIXES.any fun suf => host = suf || endsWithStr host ('.' :: suf)

/-- `looks_like_news_or_blog_url(url)`: http(s) scheme, not a Reddit host,
host not under a blocked suffix, path extension not blocked; parse failures
yield `False`. -/
def looks_like_news_or_blog_url (url : Str) : Bool :=
  match urlparseE url with
  | .error _ => false
  | .ok p =>
    if !(p.scheme = str "http" || p.scheme = str "https") then false
    else if is_reddit_host url then false
    else if hostBlocked (lowerStr p.netloc) then false
    else
      let path := lowerStr p.path
      if BLOCKED_EXTENSIONS.any (fun ext => endsWithStr path ext) then false
      else true

/-- `canonical_key(url)`: normalize and strip one trailing slash. -/
def canonical_key (url : Str) : Str :=
  let u := normalize_url url
  if endsWithStr u (str "/") then u.dropLast else u

/-! ### `html.unescape` and the link-extraction scanners -/

/-- The named character references modelled (the references that occur in
URL/title text this pipeline handles: `amp lt gt quot apos nbsp`, with the
HTML5 semicolon-less legacy forms CPython also accepts).  The full HTML5
table has further names; they behave exactly like these. -/
def NAMED_CHARREFS : List (Str × Str) :=
  [(str "amp;", str "&"), (str "amp", str "&"),
   (str "lt;", str "<"), (str "lt", str "<"),
   (str "gt;", str ">"), (str "gt", str ">"),
   (str "quot;", ['"']), (str "quot", ['"']),
   (str "apos;", [Char.ofNat 39]),
   (str "nbsp;", [Char.ofNat 0xa0]), (str "nbsp", [Char.ofNat 0xa0])]

def namedLookup (s : Str) : Option Str :=
  (NAMED_CHARREFS.find? (fun kv => kv.1 = s)).map (·.2)

/-- The longest-known-prefix fallback of `html._replace_charref` for a name
without an exact table hit: try prefixes of length `x, x-1, …, 2`. -/
def namedPrefixRepl (s : Str) : Nat → Option Str
  | 0 => none
  | 1 => none
  | x + 2 =>
    match namedLookup (s.take (x + 2)) with
    | some r => some (r ++ s.drop (x + 2))
    | none => namedPrefixRepl s (x + 1)

def replaceNamed (s : Str) : Str :=
  match namedLookup s with
  | some r => r
  | none =>
    match namedPrefixRepl s (s.length - 1) with
    | some r => r
    | none => '&' :: s

/-- `html._invalid_charrefs`: the Windows-1252 style remapping of numeric
references. -/
def invalidCharrefRepl (n : Nat) : Option Str :=
  match n with
  | 0x00 => some [fffd]
  | 0x0d => some [Char.ofNat 0x0d]
  | 0x80 => some [Char.ofNat 0x20ac]
  | 0x81 => some [Char.ofNat 0x81]
  | 0x82 => some [Char.ofNat 0x201a]
  | 0x83 => some [Char.ofNat 0x192]
  | 0x84 => some [Char.ofNat 0x201e]
  | 0x85 => some [Char.ofNat 0x2026]
  | 0x86 => some [Char.ofNat 0x2020]
  | 0x87 => some [Char.ofNat 0x2021]
  | 0x88 => some [Char.ofNat 0x2c6]
  | 0x89 => some [Char.ofNat 0x2030]
  | 0x8a => some [Char.ofNat 0x160]
  | 0x8b => some [Char.ofNat 0x2039]
  | 0x8c => some [Char.ofNat 0x152]
  | 0x8d => some [Char.ofNat 0x8d]
  | 0x8e => some [Char.ofNat 0x17d]
  | 0x8f => some [Char.ofNat 0x8f]
  | 0x90 => some [Char.ofNat 0x90]
  | 0x91 => some [Char.ofNat 0x2018]
  | 0x92 => some [Char.ofNat 0x2019]
  | 0x93 => some [Char.ofNat 0x201c]
  | 0x94 => some [Char.ofNat 0x201d]
  | 0x95 => some [Char.ofNat 0x2022]
  | 0x96 => some [Char.ofNat 0x2013]
  | 0x97 => some [Char.ofNat 0x2014]
  | 0x98 => some [Char.ofNat 0x2dc]
  | 0x99 => some [Char.ofNat 0x2122]
  | 0x9a => some [Char.ofNat 0x161]
  | 0x9b => some [Char.ofNat 0x203a]
  | 0x9c => some [Char.ofNat 0x153]
  | 0x9d => some [Char.ofNat 0x9d]
  | 0x9e => some [Char.ofNat 0x17e]
  | 0x9f => some [Char.ofNat 0x178]
  | _ => none

/-- `html._invalid_codepoints` (references that unescape to nothing). -/
def isInvalidCodepoint (n : Nat) : Bool :=
  (1 ≤ n && n ≤ 8) || n = 0xb || (0xe ≤ n && n ≤ 0x1f) ||
  (0x7f ≤ n && n ≤ 0x9f) || (0xfdd0 ≤ n && n ≤ 0xfdef) ||
  ((n % 0x10000 = 0xfffe || n % 0x10000 = 0xffff) && n ≤ 0x10ffff)

/-- Numeric character reference replacement of `html._replace_charref`. -/
def numCharref (n : Nat) : Str :=
  match invalidCharrefRepl n with
  | some r => r
  | none =>
    if (0xd800 ≤ n && n ≤ 0xdfff) || n > 0x10ffff then [fffd]
    else if isInvalidCodepoint n then []
    else [Char.ofNat n]

def hexFold (l : Str) : Nat := l.foldl (fun a c => a * 16 + hexVal c) 0

/-- Characters allowed inside an entity name by `html._charref`
(`[^\t\n\f <&#;]`, at most 32 of them). -/
def isNameChar (c : Char) : Bool :=
  !(c = Char.ofNat 9 || c = Char.ofNat 10 || c = Char.ofNat 12 || c = ' ' ||
    c = '&' || c = '#' || c = ';')

/-- `html.unescape` as a left-to-right scan; `fuel` bounds the recursion by
the input length. -/
def htmlUnescapeAux (fuel : Nat) (l : Str) : Str :=
  match fuel, l with
  | 0, l => l
  | _ + 1, [] => []
  | fuel + 1, '&' :: rest =>
    match rest with
    | '#' :: r2 =>
      match r2 with
      | 'x' :: r3 | 'X' :: r3 =>
        let ds := r3.takeWhile isHexDigitChar
        if ds = [] then '&' :: htmlUnescapeAux fuel rest
        else
          let r4 := r3.dropWhile isHexDigitChar
          let r5 := if r4.head? = some ';' then r4.tail else r4
          numCharref (hexFold ds) ++ htmlUnescapeAux fuel r5
      | _ =>
        let ds := r2.takeWhile isAsciiDigit
        if ds = [] then '&' :: htmlUnescapeAux fuel rest
        else
          let r4 := r2.dropWhile isAsciiDigit
          let r5 := if r4.head? = some ';' then r4.tail else r4
          numCharref (natOfDigits ds) ++ htmlUnescapeAux fuel r5
    | _ =>
      let nm := (rest.takeWhile isNameChar).take 32
      if nm = [] then '&' :: htmlUnescapeAux fuel rest
      else
        let r2 := rest.drop nm.length
        match r2 with
        | ';' :: r3 => replaceNamed (nm ++ [';']) ++ htmlUnescapeAux fuel r3
        | _ => replaceNamed nm ++ htmlUnescapeAux fuel r2
  | fuel + 1, c :: rest => c :: htmlUnescapeAux fuel rest

/-- `html.unescape(s)`. -/
def htmlUnescape (l : Str) : Str := htmlUnescapeAux l.length l

/-- Case-insensitive literal match: on success returns the remainder. -/
def matchCI (pat : Str) (l : Str) : Option Str :=
  match pat, l with
  | [], l => some l
  | _ :: _, [] => none
  | p :: ps, c :: cs => if asciiLower c = asciiLower p then matchCI ps cs else none

/-- After the literal `http`, consume an optional `s`/`S` then `://`
(with the backtracking `https?://` performs); returns the remainder. -/
def schemeTail (r : Str) : Option Str :=
  match r with
  | c :: r' =>
    if asciiLower c = 's' then
      match matchCI (str "://") r' with
      | some rest => some rest
      | none => matchCI (str "://") r
    else matchCI (str "://") r
  | [] => none

/-- One attempt of `HREF_RE` = `href="(https?://[^"]+)"` (IGNORECASE) at the
head of `l`: returns the captured URL and the remainder after the closing
quote. -/
def tryHref (l : Str) : Option (Str × Str) :=
  match matchCI (str "href=") l with
  | none => none
  | some r1 =>
    match r1 with
    | '"' :: r2 =>
      let pre := r2.takeWhile (fun c => c ≠ '"')
      match r2.drop pre.length with
      | '"' :: after =>
        let schemeOk :=
          match matchCI (str "http") pre with
          | none => false
          | some r => match schemeTail r with
            | some rest => rest ≠ []
            | none => false
        if pre ≠ [] && schemeOk then some (pre, after) else none
      | _ => none
    | _ => none

/-- `HREF_RE.findall(summary)`: left-to-right non-overlapping scan. -/
def findallHref (fuel : Nat) (l : Str) : List Str :=
  match fuel, l with
  | 0, _ => []
  | _, [] => []
  | fuel + 1, c :: rest =>
    match tryHref (c :: rest) with
    | some (cap, after) => cap :: findallHref fuel after
    | none => findallHref fuel rest

/-- Characters admitted by `[^\s<>"]` in `URL_RE_FALLBACK`. -/
def urlBodyChar (c : Char) : Bool :=
  !isPySpace c && c ≠ '<' && c ≠ '>' && c ≠ '"'

/-- One attempt of `URL_RE_FALLBACK` = `https?://[^\s<>"]+` (IGNORECASE) at
the head of `l`: returns the match and the remainder. -/
def tryUrl (l : Str) : Option (Str × Str) :=
  match matchCI (str "http") l with
  | none => none
  | some r =>
    match schemeTail r with
    | none => none
    | some rest =>
      let body := rest.takeWhile urlBodyChar
      if body = [] then none
      else
        let consumed := l.length - rest.length + body.length
        some (l.take consumed, l.drop consumed)

/-- `URL_RE_FALLBACK.findall(summary)`. -/
def findallUrl (fuel : Nat) (l : Str) : List Str :=
  match fuel, l with
  | 0, _ => []
  | _, [] => []
  | fuel + 1, c :: rest =>
    match tryUrl (c :: rest) with
    | some (cap, after) => cap :: findallUrl fuel after
    | none => findallUrl fuel rest

/-- The per-candidate body of both loops of `extract_external_links`:
HTML-unescape, unwrap Reddit media proxies, normalize, keep the link only if
the classifier accepts it; accumulate into the `links` set. -/
def processLinks (hrefs : List Str) : List Str :=
  hrefs.foldl
    (fun acc h =>
      if looks_like_news_or_blog_url (normalize_url (unwrap_reddit_media (htmlUnescape h)))
      then insertNew acc (normalize_url (unwrap_reddit_media (htmlUnescape h)))
      else acc)
    []

/-- The candidates produced by the anchor (`href`) pass alone. -/
def anchorCandidates (summary : Str) : List Str :=
  processLinks (findallHref summary.length summary)

/-- `extract_external_links(entry)` as a function of the entry's `summary`
string: prefer anchor targets; if that pass produced nothing, run the
permissive fallback regex over the raw text.  The Python `set` is modelled
as a duplicate-free list. -/
def extract_external_links (summary : Str) : List Str :=
  let links := anchorCandidates summary
  if links = [] then processLinks (findallUrl summary.length summary) else links

/-! ### Title fetching: `clean_title`, the title regexes, junk detection -/

/-- `re.sub(r"\s+", " ", t)`: collapse every whitespace run to one space. -/
def collapseWs (fuel : Nat) (l : Str) : Str :=
  match fuel, l with
  | 0, l => l
  | _ + 1, [] => []
  | fuel + 1, c :: rest =>
    if isPySpace c then ' ' :: collapseWs fuel (rest.dropWhile isPySpace)
    else c :: collapseWs fuel rest

/-- The character set of `t.strip(" \t\r\n-|")`. -/
def TITLE_STRIP_SET : List Char :=
  [' ', Char.ofNat 9, Char.ofNat 13, Char.ofNat 10, '-', '|']

/-- `clean_title(t)`: HTML-unescape, collapse whitespace, strip, then strip
decorative separators at both ends. -/
def clean_title (t : Str) : Str :=
  let t1 := htmlUnescape t
  let t2 := pyStrip (collapseWs t1.length t1)
  dropTrailing (fun c => c ∈ TITLE_STRIP_SET)
    (t2.dropWhile (fun c => c ∈ TITLE_STRIP_SET))

/-- `JUNK_TITLE_PATTERNS` (all literal, lower-case). -/
def JUNK_TITLE_PATTERNS : List Str :=
  [str "just a moment", str "checking your browser", str "verify you are human",
   str "access denied", str "permission denied", str "request blocked",
   str "service unavailable", str "temporarily unavailable",
   str "enable javascript", str "cookies are required", str "consent",
   str "subscribe to continue", str "sign in to continue"]

/-- `JUNK_TITLE_RE.search(title)`: does any pattern occur, case-insensitively,
in the title? -/
def junkTitleSearch (t : Str) : Bool :=
  let lt := lowerStr t
  JUNK_TITLE_PATTERNS.any (fun p => containsSub lt p)

def quoteChar (c : Char) : Bool := c = '"' || c = Char.ofNat 39

/-- One attempt of the meta-title regexes
(`<meta[^>]+ATTR["\']VAL["\'][^>]+content=["\'](.*?)["\']`, IGNORECASE and
DOTALL) at the head of `l`, with the greedy longest-first backtracking of the
two `[^>]+` gaps; returns the capture. -/
def tryMetaAt (attr val : Str) (l : Str) : Option Str :=
  match matchCI (str "<meta") l with
  | none => none
  | some r1 =>
    let maxA := (r1.takeWhile (fun c => c ≠ '>')).length
    (List.range maxA).findSome? fun d =>
      let k := maxA - d
      if k = 0 then none
      else
        match matchCI attr (r1.drop k) with
        | none => none
        | some r3 =>
          match r3 with
          | c1 :: r4 =>
            if quoteChar c1 then
              match matchCI val r4 with
              | none => none
              | some r5 =>
                match r5 with
                | c2 :: r6 =>
                  if quoteChar c2 then
                    let maxB := (r6.takeWhile (fun c => c ≠ '>')).length
                    (List.range maxB).findSome? fun d2 =>
                      let m := maxB - d2
                      if m = 0 then none
                      else
                        match matchCI (str "content=") (r6.drop m) with
                        | none => none
                        | some r8 =>
                          match r8 with
                          | c3 :: r9 =>
                            if quoteChar c3 then
                              let cap := r9.takeWhile (fun c => !quoteChar c)
                              if r9.drop cap.length = [] then none else some cap
                            else none
                          | [] => none
                  else none
                | [] => none
            else none
          | [] => none

/-- `OG_TITLE_RE.search` / `TW_TITLE_RE.search`: leftmost matching start. -/
def searchMeta (attr val : Str) (fuel : Nat) (l : Str) : Option Str :=
  match fuel, l with
  | 0, _ => none
  | _, [] => none
  | fuel + 1, c :: rest =>
    match tryMetaAt attr val (c :: rest) with
    | some cap => some cap
    | none => searchMeta attr val fuel rest

/-- The lazy `(.*?)</title>` tail: shortest prefix followed by the close
tag. -/
def lazyUpToClose (l : Str) : Option Str :=
  match matchCI (str "</title>") l with
  | some _ => some []
  | none =>
    match l with
    | [] => none
    | c :: rest => (lazyUpToClose rest).map (c :: ·)

/-- One attempt of `TITLE_TAG_RE` = `<title[^>]*>(.*?)</title>` (IGNORECASE,
DOTALL) at the head of `l`. -/
def tryTitleAt (l : Str) : Option Str :=
  match matchCI (str "<title") l with
  | none => none
  | some r1 =>
    let a := r1.takeWhile (fun c => c ≠ '>')
    match r1.drop a.length with
    | '>' :: r2 => lazyUpToClose r2
    | _ => none

/-- `TITLE_TAG_RE.search`. -/
def searchTitleTag (fuel : Nat) (l : Str) : Option Str :=
  match fuel, l with
  | 0, _ => none
  | _, [] => none
  | fuel + 1, c :: rest =>
    match tryTitleAt (c :: rest) with
    | some cap => some cap
    | none => searchTitleTag fuel rest

/-- Python truthiness of the `title` variable: not `None` and not empty. -/
def truthy : Option Str → Bool
  | none => false
  | some [] => false
  | some (_ :: _) => true

/-- `if not title: … title = clean_title(m.group(1))` — keep `cur` when it is
truthy or when the next search found nothing. -/
def stepSearch (cur found : Option Str) : Option Str :=
  if truthy cur then cur
  else
    match found with
    | some t => some t
    | none => cur

/-- The title-extraction cascade of `fetch_page_title_and_final_url`:
`og:title`, then `twitter:title`, then the `<title>` element, each cleaned. -/
def cascadeTitle (text : Str) : Option Str :=
  let s1 := (searchMeta (str "property=") (str "og:title") text.length text).map clean_title
  let s2 := stepSearch s1
    ((searchMeta (str "name=") (str "twitter:title") text.length text).map clean_title)
  stepSearch s2 ((searchTitleTag text.length text).map clean_title)

/-- The already-fetched HTTP response handed to the title resolver: the
final URL after redirects (`r.url`), the `Content-Type` header if present,
and the body text. -/
structure Response where
  url : Str
  contentType : Option Str
  text : Str
deriving Repr, DecidableEq

/-- `fetch_page_title_and_final_url(url)` as a function of the fetch outcome:
`none` models any request exception or non-2xx status (the `except` branch).
Returns `(title?, final_url)`. -/
def fetch_page_title_and_final_url (url : Str) (resp : Option Response) :
    Option Str × Str :=
  match resp with
  | none => (none, url)
  | some r =>
    let final_url := normalize_url r.url
    let ctype := lowerStr (r.contentType.getD [])
    if ctype ≠ [] && !containsSub ctype (str "text/html") then (none, final_url)
    else
      let text := r.text.take 200000
      match cascadeTitle text with
      | none => (none, final_url)
      | some t =>
        if t = [] then (none, final_url)
        else if t.length < 12 then (none, final_url)
        else if junkTitleSearch t then (none, final_url)
        else (some t, final_url)

/-! ### SHA-256 (`hashlib.sha256(key.encode()).hexdigest()`) -/

def M32 : Nat := 4294967296

def rotr (n x : Nat) : Nat := (x / 2 ^ n + x % 2 ^ n * 2 ^ (32 - n)) % M32

def shaK : List Nat :=
  [1116352408, 1899447441, 3049323471, 3921009573, 961987163, 1508970993,
   2453635748, 2870763221, 3624381080, 310598401, 607225278, 1426881987,
   1925078388, 2162078206, 2614888103, 3248222580, 3835390401, 4022224774,
   264347078, 604807628, 770255983, 1249150122, 1555081692, 1996064986,
   2554220882, 2821834349, 2952996808, 3210313671, 3336571891, 3584528711,
   113926993, 338241895, 666307205, 773529912, 1294757372, 1396182291,
   1695183700, 1986661051, 2177026350, 2456956037, 2730485921, 2820302411,
   3259730800, 3345764771, 3516065817, 3600352804, 4094571909, 275423344,
   430227734, 506948616, 659060556, 883997877, 958139571, 1322822218,
   1537002063, 1747873779, 1955562222, 2024104815, 2227730452, 2361852424,
   2428436474, 2756734187, 3204031479, 3329325298]

def shaH0 : List Nat :=
  [1779033703, 3144134277, 1013904242, 2773480762, 1359893119, 2600822924,
   528734635, 1541459225]

def smallSigma0 (x : Nat) : Nat := rotr 7 x ^^^ rotr 18 x ^^^ x / 2 ^ 3

def smallSigma1 (x : Nat) : Nat := rotr 17 x ^^^ rotr 19 x ^^^ x / 2 ^ 10

def bigSigma0 (x : Nat) : Nat := rotr 2 x ^^^ rotr 13 x ^^^ rotr 22 x

def bigSigma1 (x : Nat) : Nat := rotr 6 x ^^^ rotr 11 x ^^^ rotr 25 x

/-- Big-endian 32-bit words from bytes. -/
def toWords : List Nat → List Nat
  | b1 :: b2 :: b3 :: b4 :: rest =>
    (b1 * 16777216 + b2 * 65536 + b3 * 256 + b4) :: toWords rest
  | _ => []

def splitBlocks (fuel : Nat) (ws : List Nat) : List (List Nat) :=
  match fuel, ws with
  | 0, _ => []
  | _, [] => []
  | fuel + 1, ws => ws.take 16 :: splitBlocks fuel (ws.drop 16)

/-- Message-schedule extension from 16 to 64 words. -/
def extendW (w : List Nat) : List Nat :=
  (List.range 48).foldl
    (fun w _ =>
      let t := (smallSigma1 (w.getD (w.length - 2) 0) + w.getD (w.length - 7) 0 +
                smallSigma0 (w.getD (w.length - 15) 0) + w.getD (w.length - 16) 0) % M32
      w ++ [t])
    w

/-- One SHA-256 compression round applied to the eight-word state. -/
def shaRound (w : List Nat) (st : List Nat) (i : Nat) : List Nat :=
  match st with
  | [a, b, c, d, e, f, g, h] =>
    let t1 := (h + bigSigma1 e + ((e &&& f) ^^^ ((M32 - 1 - e) &&& g)) +
               shaK.getD i 0 + w.getD i 0) % M32
    let t2 := (bigSigma0 a + ((a &&& b) ^^^ (a &&& c) ^^^ (b &&& c))) % M32
    [(t1 + t2) % M32, a, b, c, (d + t1) % M32, e, f, g]
  | st => st

def shaCompress (h : List Nat) (block : List Nat) : List Nat :=
  let w := extendW block
  let fin := (List.range 64).foldl (shaRound w) h
  List.zipWith (fun x y => (x + y) % M32) h fin

/-- SHA-256 of a byte string, as 32 bytes. -/
def sha256Bytes (msg : List Nat) : List Nat :=
  let L := msg.length
  let padLen := (55 + 64 - L % 64) % 64
  let lenBytes := (List.range 8).map fun i => 8 * L / 2 ^ (8 * (7 - i)) % 256
  let padded := msg ++ 0x80 :: (List.replicate padLen 0 ++ lenBytes)
  let blocks := splitBlocks padded.length (toWords padded)
  let hfin := blocks.foldl shaCompress shaH0
  hfin.flatMap fun wv => [wv / 16777216 % 256, wv / 65536 % 256, wv / 256 % 256, wv % 256]

def hexDigitL (n : Nat) : Char :=
  if n < 10 then Char.ofNat ('0'.toNat + n) else Char.ofNat ('a'.toNat + n - 10)

/-- `hashlib.sha256(s.encode()).hexdigest()`. -/
def sha256hex (s : Str) : Str :=
  (sha256Bytes (utf8Encode s)).flatMap fun b => [hexDigitL (b / 16), hexDigitL (b % 16)]

/-! ### The aggregation table of `main` -/

/-- One entry of `items_by_url` (the per-URL item dictionary of `main`). -/
structure FeedItem where
  guid : Str
  title : Str
  link : Str
  published : Int
  subs : List Str
  reddit_posts : List (Str × Str × Str)
deriving Repr, DecidableEq

/-- `items_by_url`, an insertion-ordered dictionary. -/
abbrev Table := List (Str × FeedItem)

/-- The data of one `raw_link` iteration of `main`'s inner loop, after the
title fetch: the source subreddit, the post's permalink and title, the post
timestamp (a total order stands in for `datetime`), and the fetch outcome
`(article_title, final_url)`. -/
structure Candidate where
  sub : Str
  reddit_link : Str
  reddit_post_title : Str
  published : Int
  article_title : Option Str
  final_url : Str
deriving Repr, DecidableEq

def lookupTbl (t : Table) (k : Str) : Option FeedItem :=
  (t.find? (fun p => p.1 = k)).map (·.2)

/-- The merge branch of `main`: add the subreddit to the source set, append
provenance, keep the most recent share date. -/
def mergeItem (it : FeedItem) (e : Candidate) : FeedItem :=
  { it with
    subs := insertNew it.subs e.sub
    reddit_posts := it.reddit_posts ++ [(e.sub, e.reddit_link, e.reddit_post_title)]
    published := if it.published < e.published then e.published else it.published }

/-- One iteration of `main`'s candidate loop: skip unresolved titles,
otherwise create or merge the item keyed by the canonical URL. -/
def step (tbl : Table) (e : Candidate) : Table :=
  match e.article_title with
  | none => tbl
  | some t =>
    if t = [] then tbl
    else
      let key := canonical_key e.final_url
      match lookupTbl tbl key with
      | none =>
        tbl ++ [(key,
          { guid := sha256hex key, title := t, link := e.final_url,
            published := e.published, subs := [e.sub],
            reddit_posts := [(e.sub, e.reddit_link, e.reddit_post_title)] })]
      | some _ => tbl.map fun p => if p.1 = key then (p.1, mergeItem p.2 e) else p

/-- `main`'s aggregation loop over the flattened stream of candidates (the
triple `break` on the `MAX_ITEMS * 2` guardrail stops all remaining work,
which the flattening preserves). -/
def run : List Candidate → Table → Table
  | [], tbl => tbl
  | e :: es, tbl =>
    let tbl2 := step tbl e
    if MAX_ITEMS * 2 ≤ tbl2.length then tbl2 else run es tbl2

/-! ### Output construction, ordering and capping -/

structure OutputItem where
  guid : Str
  title : Str
  link : Str
  published : Int
  description : Str
deriving Repr, DecidableEq

/-- Python string comparison (code-point lexicographic). -/
def lexLe : Str → Str → Bool
  | [], _ => true
  | _ :: _, [] => false
  | a :: as1, b :: bs1 => if a = b then lexLe as1 bs1 else decide (a < b)

/-- `sorted(it["subs"])`. -/
def sortedStrs (l : List Str) : List Str := l.mergeSort lexLe

/-- The description `main` renders: the sources that shared the link and up
to two Reddit post references. -/
def buildDescription (it : FeedItem) : Str :=
  let shared_on := joinWith (str ", ") ((sortedStrs it.subs).map fun s => str "r/" ++ s)
  let post_bits := (it.reddit_posts.take 2).map fun p => str "r/" ++ p.1 ++ str ": " ++ p.2.1
  str "Shared on " ++ shared_on ++ str " | Reddit posts: " ++ joinWith (str " | ") post_bits

def toOutputItem (p : Str × FeedItem) : OutputItem :=
  { guid := p.2.guid, title := p.2.title, link := p.2.link,
    published := p.2.published, description := buildDescription p.2 }

/-- `items.sort(key=lambda x: x["published"], reverse=True)`: most recent
first (a stable sort, like CPython's). -/
def descOrder (a b : OutputItem) : Bool := b.published ≤ a.published

/-- The tail of `main`: flatten the table, sort by descending timestamp,
truncate to `MAX_ITEMS`. -/
def finalize (tbl : Table) : List OutputItem :=
  ((tbl.map toOutputItem).mergeSort descOrder).take MAX_ITEMS

/-! ### Spec-side predicates (formulations taken from the specification's
wording, for comparison with the source-derived functions) -/

/-- Spec wording of `OwnPlatform`: the URL's (lower-cased) host exactly
matches, or is a subdomain of, one of the source platform's known domains —
the members of `REDDIT_HOSTS`, which include the short-link (`redd.it`) and
media-CDN (`redditmedia.com`) domains. -/
def ownPlatformSpec (url : Str) : Bool :=
  match urlparseE url with
  | .error _ => false
  | .ok p =>
    let host := lowerStr p.netloc
    REDDIT_HOSTS.any fun d => host = d || endsWithStr host ('.' :: d)

/-- Does the trimmed input parse into a URL carrying both a scheme and a
host?  (The success condition of `normalize_url`'s main branch.) -/
def parsedWithSchemeAndHost (u : Str) : Bool :=
  match urlparseE u with
  | .error _ => false
  | .ok p => p.scheme ≠ [] && p.netloc ≠ []

/-! ## Theorems -/

/-! ### Shared helper lemmas -/

theorem mem_insertNew_self (l : List Str) (x : Str) : x ∈ insertNew l x := by
  unfold insertNew
  split
  · assumption
  · simp

theorem mem_insertNew_of_mem (l : List Str) (x y : Str) (h : y ∈ l) :
    y ∈ insertNew l x := by
  unfold insertNew
  split
  · assumption
  · simp [h]

theorem mem_insertNew (l : List Str) (x y : Str) (h : y ∈ insertNew l x) :
    y ∈ l ∨ y = x := by
  unfold insertNew at h
  by_cases hx : x ∈ l
  · simp [hx] at h
    exact Or.inl h
  · simp [hx] at h
    exact h

theorem looks_like_not_reddit (u : Str)
    (h : looks_like_news_or_blog_url u = true) : is_reddit_host u = false := by
  cases hr : is_reddit_host u
  · rfl
  · exfalso
    unfold looks_like_news_or_blog_url at h
    cases hp : urlparseE u with
    | error e => rw [hp] at h; simp at h
    | ok p =>
      rw [hp, hr] at h
      by_cases hs : (p.scheme = str "http" ∨ p.scheme = str "https") <;>
        simp [hs] at h

theorem processLinks_mem (hrefs : List Str) (u : Str)
    (h : u ∈ processLinks hrefs) : looks_like_news_or_blog_url u = true := by
  unfold processLinks at h
  have key : ∀ (hs : List Str) (acc : List Str),
      (∀ y ∈ acc, looks_like_news_or_blog_url y = true) →
      ∀ v ∈ hs.foldl
        (fun acc h =>
          if looks_like_news_or_blog_url (normalize_url (unwrap_reddit_media (htmlUnescape h)))
          then insertNew acc (normalize_url (unwrap_reddit_media (htmlUnescape h)))
          else acc)
        acc, looks_like_news_or_blog_url v = true := by
    intro hs
    induction hs with
    | nil => intro acc hacc v hv; exact hacc v hv
    | cons a as ih =>
      intro acc hacc v hv
      simp only [List.foldl_cons] at hv
      refine ih _ ?_ v hv
      intro y hy
      by_cases hl :
          looks_like_news_or_blog_url (normalize_url (unwrap_reddit_media (htmlUnescape a))) = true
      · rw [if_pos hl] at hy
        rcases mem_insertNew _ _ _ hy with h1 | h2
        · exact hacc y h1
        · rw [h2]; exact hl
      · rw [if_neg hl] at hy
        exact hacc y hy
  exact key hrefs [] (by intro y hy; simp at hy) u h

/-! ### Claim C5 — blocked-host matching is suffix-exact -/

/-- Claim C5: the blocked-host rule used by the classifier fires exactly when
the host equals a blocked suffix or ends with `"." + suffix`; in particular
`notyoutube.com` is accepted by the classifier while `m.youtube.com` is
rejected. -/
theorem blocked_suffix_exact :
    (∀ host : Str, hostBlocked host = true ↔
      ∃ suf ∈ BLOCKED_HOST_SUFFIXES, host = suf ∨ ('.' :: suf) <:+ host) ∧
    looks_like_news_or_blog_url (str "https://notyoutube.com/a") = true ∧
    looks_like_news_or_blog_url (str "https://m.youtube.com/a") = false := by
  refine ⟨?_, by decide, by decide⟩
  intro host
  unfold hostBlocked
  rw [List.any_eq_true]
  constructor
  · rintro ⟨suf, hmem, hp⟩
    refine ⟨suf, hmem, ?_⟩
    rcases Bool.or_eq_true_iff.mp hp with h | h
    · exact Or.inl (by simpa using h)
    · exact Or.inr (List.isSuffixOf_iff_suffix.mp (by simpa [endsWithStr] using h))
  · rintro ⟨suf, hmem, hp⟩
    refine ⟨suf, hmem, ?_⟩
    rcases hp with h | h
    · simp [h]
    · simp [endsWithStr, List.isSuffixOf_iff_suffix, h]

/-! ### Claim C1 — own-platform exclusion in the extractor -/

/-- Counterexample to C1 as stated: `media.redd.it` is a subdomain of the
known short-link domain `redd.it` (`ownPlatformSpec`), yet the extractor
returns it as a candidate, because `is_reddit_host` only excludes the exact
`REDDIT_HOSTS` entries and subdomains of `reddit.com` itself. -/
theorem extract_ownplatform_counterexample :
    (str "https://media.redd.it/x") ∈
      extract_external_links (str "<a href=\"https://media.redd.it/x\">t</a>") ∧
    ownPlatformSpec (str "https://media.redd.it/x") = true := by decide

/-- Claim C1 (amended): every URL in the candidate set returned by
`extract_external_links` has a host that is neither exactly one of the known
Reddit domains nor a subdomain of `reddit.com` — that is, `is_reddit_host` is
`false` on every candidate.  (Subdomains of the short-link and media-CDN
domains are not excluded; see the counterexample.) -/
theorem extract_not_reddit (s u : Str) (h : u ∈ extract_external_links s) :
    is_reddit_host u = false := by
  have e : extract_external_links s =
      if anchorCandidates s = [] then processLinks (findallUrl s.length s)
      else anchorCandidates s := rfl
  rw [e] at h
  by_cases he : anchorCandidates s = []
  · rw [if_pos he] at h
    exact looks_like_not_reddit u (processLinks_mem _ u h)
  · rw [if_neg he] at h
    unfold anchorCandidates at h
    exact looks_like_not_reddit u (processLinks_mem _ u h)

/-- Witness for the amended C1 at a concrete post body. -/
theorem extract_not_reddit_witness :
    (str "https://example.com/story") ∈
      extract_external_links (str "<a href=\"https://example.com/story\">x</a>") ∧
    is_reddit_host (str "https://example.com/story") = false :=
  ⟨by decide,
   extract_not_reddit (str "<a href=\"https://example.com/story\">x</a>")
     (str "https://example.com/story") (by decide)⟩

/-! ### Claim C8 — anchors-first, fallback only without anchors -/

/-- Counterexample to C8 as stated: in this post body the anchor regex does
find an `href` target, yet the accepted candidate comes from the fallback
scan over the raw text (the anchor pass accepted nothing), so candidates do
not come exclusively from the anchor pass when anchors are present. -/
theorem fallback_despite_anchor_counterexample :
    findallHref
      (str "<a href=\"https://www.reddit.com/r/x\">l</a> see https://example.com/story").length
      (str "<a href=\"https://www.reddit.com/r/x\">l</a> see https://example.com/story") ≠ [] ∧
    anchorCandidates
      (str "<a href=\"https://www.reddit.com/r/x\">l</a> see https://example.com/story") = [] ∧
    extract_external_links
      (str "<a href=\"https://www.reddit.com/r/x\">l</a> see https://example.com/story") =
      [str "https://example.com/story"] := by decide

/-- Claim C8 (amended): the fallback regex pass is used only when the anchor
pass yields no accepted candidate; whenever the anchor pass accepts at least
one link, the extractor's candidates are exactly those of the anchor pass. -/
theorem extract_prefers_anchors (s : Str) (h : anchorCandidates s ≠ []) :
    extract_external_links s = anchorCandidates s := by
  have e : extract_external_links s =
      if anchorCandidates s = [] then processLinks (findallUrl s.length s)
      else anchorCandidates s := rfl
  rw [e, if_neg h]

/-- Witness for the amended C8 at a concrete post body. -/
theorem extract_prefers_anchors_witness :
    anchorCandidates (str "<p><a href=\"https://news.example/a\">x</a> see also https://other.example/b</p>") ≠ [] ∧
    extract_external_links (str "<p><a href=\"https://news.example/a\">x</a> see also https://other.example/b</p>") =
      anchorCandidates (str "<p><a href=\"https://news.example/a\">x</a> see also https://other.example/b</p>") :=
  ⟨by decide, extract_prefers_anchors _ (by decide)⟩

/-! ### Claim C9 — `normalize_url` total, trimmed-input fallback -/

/-- Claim C9: `normalize_url` is a total function (it is defined without any
failure case), and whenever the trimmed input does not parse into a URL with
both a scheme and a host — including every input on which the parser raises —
it returns the trimmed input unchanged. -/
theorem normalize_url_fallback (x : Str)
    (h : parsedWithSchemeAndHost (pyTrim x) = false) :
    normalize_url x = pyTrim x := by
  unfold parsedWithSchemeAndHost at h
  unfold normalize_url
  cases hp : urlparseE (pyTrim x) with
  | error e => simp [hp]
  | ok p =>
    rw [hp] at h
    simp only [Bool.and_eq_false_iff] at h
    rcases h with h | h <;> simp at h <;> simp [hp, h]

/-- Witness for C9 at the concrete input `"not a url"`. -/
theorem normalize_url_fallback_witness :
    parsedWithSchemeAndHost (pyTrim (str "not a url")) = false ∧
    normalize_url (str "not a url") = pyTrim (str "not a url") :=
  ⟨by decide, normalize_url_fallback (str "not a url") (by decide)⟩

/-! ### Aggregation-table lemmas -/

theorem lookupTbl_append (t1 t2 : Table) (k : Str) :
    lookupTbl (t1 ++ t2) k = (lookupTbl t1 k).or (lookupTbl t2 k) := by
  unfold lookupTbl
  rw [List.find?_append]
  cases List.find? (fun p => p.1 = k) t1 <;> simp

theorem lookupTbl_map_mergeAt (tbl : Table) (key k : Str) (e : Candidate) :
    lookupTbl (tbl.map fun p => if p.1 = key then (p.1, mergeItem p.2 e) else p) k =
      (lookupTbl tbl k).map fun i => if k = key then mergeItem i e else i := by
  induction tbl with
  | nil => rfl
  | cons a rest ih =>
    unfold lookupTbl at ih ⊢
    rw [List.map_cons]
    by_cases hkey : a.1 = key
    · rw [if_pos hkey]
      by_cases hka : a.1 = k
      · rw [List.find?_cons_of_pos _ (by simp [hka]),
          List.find?_cons_of_pos _ (by simp [hka])]
        simp only [Option.map_some']
        rw [if_pos (by rw [← hka]; exact hkey)]
      · rw [List.find?_cons_of_neg _ (by simp [hka]),
          List.find?_cons_of_neg _ (by simp [hka])]
        exact ih
    · rw [if_neg hkey]
      by_cases hka : a.1 = k
      · rw [List.find?_cons_of_pos _ (by simp [hka]),
          List.find?_cons_of_pos _ (by simp [hka])]
        simp only [Option.map_some']
        rw [if_neg (by rw [← hka]; exact hkey)]
      · rw [List.find?_cons_of_neg _ (by simp [hka]),
          List.find?_cons_of_neg _ (by simp [hka])]
        exact ih

theorem lookupTbl_singleton (k : Str) (i : FeedItem) : lookupTbl [(k, i)] k = some i := by
  unfold lookupTbl
  rw [List.find?_cons_of_pos _ (by simp)]
  rfl

theorem map_merge_singleton (k1 k2 : Str) (i : FeedItem) (e : Candidate)
    (h : k1 = k2) :
    List.map (fun p => if p.1 = k2 then (p.1, mergeItem p.2 e) else p) [(k1, i)] =
      [(k1, mergeItem i e)] := by
  subst h
  simp

theorem run_nil (tbl : Table) : run [] tbl = tbl := rfl

theorem run_cons (e : Candidate) (es : List Candidate) (tbl : Table) :
    run (e :: es) tbl =
      if MAX_ITEMS * 2 ≤ (step tbl e).length then step tbl e
      else run es (step tbl e) := rfl

theorem step_title_none (tbl : Table) (e : Candidate)
    (h : e.article_title = none) : step tbl e = tbl := by
  simp [step, h]

theorem step_title_blank (tbl : Table) (e : Candidate)
    (h : e.article_title = some []) : step tbl e = tbl := by
  simp [step, h]

theorem step_merge (tbl : Table) (e : Candidate) (t : Str)
    (ht : e.article_title = some t) (hne : t ≠ []) (i : FeedItem)
    (hhit : lookupTbl tbl (canonical_key e.final_url) = some i) :
    step tbl e =
      tbl.map fun p =>
        if p.1 = canonical_key e.final_url then (p.1, mergeItem p.2 e) else p := by
  simp [step, ht, hne, hhit]

theorem step_new (tbl : Table) (e : Candidate) (t : Str)
    (ht : e.article_title = some t) (hne : t ≠ [])
    (hmiss : lookupTbl tbl (canonical_key e.final_url) = none) :
    step tbl e =
      tbl ++ [(canonical_key e.final_url,
        { guid := sha256hex (canonical_key e.final_url), title := t,
          link := e.final_url, published := e.published, subs := [e.sub],
          reddit_posts := [(e.sub, e.reddit_link, e.reddit_post_title)] })] := by
  simp [step, ht, hne, hmiss]

theorem guid_inv_step (tbl : Table) (e : Candidate)
    (hinv : ∀ k i, lookupTbl tbl k = some i → i.guid = sha256hex k) :
    ∀ k i, lookupTbl (step tbl e) k = some i → i.guid = sha256hex k := by
  intro k i h
  cases ht : e.article_title with
  | none => rw [step_title_none tbl e ht] at h; exact hinv k i h
  | some t =>
    by_cases hne : t = []
    · subst hne
      rw [step_title_blank tbl e ht] at h
      exact hinv k i h
    · cases hhit : lookupTbl tbl (canonical_key e.final_url) with
      | none =>
        rw [step_new tbl e t ht hne hhit, lookupTbl_append] at h
        cases hfst : lookupTbl tbl k with
        | some i' =>
          rw [hfst, Option.or_some, Option.some.injEq] at h
          subst h
          exact hinv k _ hfst
        | none =>
          rw [hfst, Option.none_or] at h
          unfold lookupTbl at h
          by_cases hk : canonical_key e.final_url = k
          · rw [List.find?_cons_of_pos _ (by simp [hk])] at h
            simp only [Option.map_some', Option.some.injEq] at h
            rw [← h, ← hk]
          · rw [List.find?_cons_of_neg _ (by simp [hk])] at h
            simp at h
      | some i0 =>
        rw [step_merge tbl e t ht hne i0 hhit, lookupTbl_map_mergeAt] at h
        cases hfst : lookupTbl tbl k with
        | none => rw [hfst] at h; simp at h
        | some i' =>
          rw [hfst] at h
          simp only [Option.map_some', Option.some.injEq] at h
          have hg := hinv k i' hfst
          rw [← h]
          split
          · exact hg
          · exact hg

theorem guid_inv_run (es : List Candidate) (tbl : Table)
    (hinv : ∀ k i, lookupTbl tbl k = some i → i.guid = sha256hex k) :
    ∀ k i, lookupTbl (run es tbl) k = some i → i.guid = sha256hex k := by
  induction es generalizing tbl with
  | nil => exact hinv
  | cons e es ih =>
    intro k i h
    have hstep := guid_inv_step tbl e hinv
    simp only [run] at h
    split at h
    · exact hstep k i h
    · exact ih (step tbl e) hstep k i h

/-! ### Claim C2 — dedup by canonical key, source-set union, timestamp max -/

/-- Claim C2: feeding two resolved candidates whose final URLs share one
canonical key (timestamps `T1 < T2`, any sources) through the aggregation
loop produces a table with exactly one entry for that key; its source set
contains both contributing sources and its published timestamp is `T2`. -/
theorem merge_same_key (s1 s2 l1 l2 pt1 pt2 : Str) (T1 T2 : Int)
    (t1 t2 f1 f2 : Str) (ht1 : t1 ≠ []) (ht2 : t2 ≠ [])
    (hk : canonical_key f1 = canonical_key f2) (hT : T1 < T2) :
    (run [⟨s1, l1, pt1, T1, some t1, f1⟩, ⟨s2, l2, pt2, T2, some t2, f2⟩] []).map
        Prod.fst = [canonical_key f1] ∧
    ∀ i, lookupTbl
        (run [⟨s1, l1, pt1, T1, some t1, f1⟩, ⟨s2, l2, pt2, T2, some t2, f2⟩] [])
        (canonical_key f1) = some i →
      s1 ∈ i.subs ∧ s2 ∈ i.subs ∧ i.published = T2 := by
  have h1 : step [] ⟨s1, l1, pt1, T1, some t1, f1⟩ =
      [(canonical_key f1,
        { guid := sha256hex (canonical_key f1), title := t1, link := f1,
          published := T1, subs := [s1], reddit_posts := [(s1, l1, pt1)] })] := by
    rw [step_new ([] : Table) _ t1 rfl ht1 rfl]
    rfl
  have h2 : lookupTbl
      [(canonical_key f1,
        { guid := sha256hex (canonical_key f1), title := t1, link := f1,
          published := T1, subs := [s1], reddit_posts := [(s1, l1, pt1)] })]
      (canonical_key f2) = some
        { guid := sha256hex (canonical_key f1), title := t1, link := f1,
          published := T1, subs := [s1], reddit_posts := [(s1, l1, pt1)] } := by
    rw [← hk]
    exact lookupTbl_singleton _ _
  have h3 : run [⟨s1, l1, pt1, T1, some t1, f1⟩, ⟨s2, l2, pt2, T2, some t2, f2⟩] [] =
      [(canonical_key f1,
        mergeItem
          { guid := sha256hex (canonical_key f1), title := t1, link := f1,
            published := T1, subs := [s1], reddit_posts := [(s1, l1, pt1)] }
          ⟨s2, l2, pt2, T2, some t2, f2⟩)] := by
    have hm := step_merge
      [(canonical_key f1,
        { guid := sha256hex (canonical_key f1), title := t1, link := f1,
          published := T1, subs := [s1], reddit_posts := [(s1, l1, pt1)] })]
      ⟨s2, l2, pt2, T2, some t2, f2⟩ t2 rfl ht2 _ h2
    rw [run_cons, h1, if_neg (by simp [MAX_ITEMS]), run_cons, hm,
      if_neg (by simp [MAX_ITEMS]), run_nil]
    exact map_merge_singleton _ _ _ _ hk
  constructor
  · rw [h3]; rfl
  · intro i hi
    rw [h3, lookupTbl_singleton, Option.some.injEq] at hi
    subst hi
    refine ⟨mem_insertNew_of_mem _ _ _ (by simp), mem_insertNew_self _ _, ?_⟩
    show (if T1 < T2 then T2 else T1) = T2
    rw [if_pos hT]

set_option maxHeartbeats 2000000 in
/-- Witness for C2: the spec's own dedup example —
`https://news.example/a/?utm_source=reddit` and `https://news.example/a`
normalize to the same canonical key. -/
theorem merge_same_key_witness :
    canonical_key (str "https://news.example/a/?utm_source=reddit") =
      canonical_key (str "https://news.example/a") ∧
    (1 : Int) < 2 ∧
    ((run [⟨str "medicine", str "pl1", str "pt1", 1, some (str "A Title"),
          str "https://news.example/a/?utm_source=reddit"⟩,
        ⟨str "neurology", str "pl2", str "pt2", 2, some (str "A Title"),
          str "https://news.example/a"⟩] []).map Prod.fst =
        [canonical_key (str "https://news.example/a/?utm_source=reddit")] ∧
      ∀ i, lookupTbl
          (run [⟨str "medicine", str "pl1", str "pt1", 1, some (str "A Title"),
              str "https://news.example/a/?utm_source=reddit"⟩,
            ⟨str "neurology", str "pl2", str "pt2", 2, some (str "A Title"),
              str "https://news.example/a"⟩] [])
          (canonical_key (str "https://news.example/a/?utm_source=reddit")) = some i →
        str "medicine" ∈ i.subs ∧ str "neurology" ∈ i.subs ∧ i.published = 2) :=
  ⟨by decide, by decide,
   merge_same_key (str "medicine") (str "neurology") (str "pl1") (str "pl2")
     (str "pt1") (str "pt2") 1 2 (str "A Title") (str "A Title")
     (str "https://news.example/a/?utm_source=reddit") (str "https://news.example/a")
     (by decide) (by decide) (by decide) (by decide)⟩

/-! ### Claim C10 — merging never touches guid, title or link -/

/-- Claim C10: when a candidate's canonical key is already present, the
merge leaves the stored item's identifier, title and link unchanged (only
the timestamp, source set and provenance list are updated). -/
theorem merge_frame (tbl : Table) (k : Str) (i : FeedItem) (e : Candidate)
    (t : Str) (ht : e.article_title = some t) (hne : t ≠ [])
    (hkey : canonical_key e.final_url = k) (hhit : lookupTbl tbl k = some i) :
    ∀ j, lookupTbl (step tbl e) k = some j →
      j.guid = i.guid ∧ j.title = i.title ∧ j.link = i.link := by
  intro j hj
  rw [step_merge tbl e t ht hne i (hkey.symm ▸ hhit), hkey,
    lookupTbl_map_mergeAt, hhit] at hj
  simp at hj
  subst hj
  exact ⟨rfl, rfl, rfl⟩

set_option maxHeartbeats 2000000 in
/-- Witness for C10 at a concrete table and candidate. -/
theorem merge_frame_witness :
    lookupTbl [(str "k", ⟨str "g0", str "Old Title", str "https://l/", 3,
        [str "medicine"], []⟩)] (str "k") =
      some ⟨str "g0", str "Old Title", str "https://l/", 3, [str "medicine"], []⟩ ∧
    canonical_key (str "k") = str "k" ∧
    ∀ j, lookupTbl
        (step [(str "k", ⟨str "g0", str "Old Title", str "https://l/", 3,
            [str "medicine"], []⟩)]
          ⟨str "neurology", str "pl", str "pt", 9, some (str "New Title"), str "k"⟩)
        (str "k") = some j →
      j.guid = str "g0" ∧ j.title = str "Old Title" ∧ j.link = str "https://l/" :=
  ⟨by decide, by decide,
   merge_frame [(str "k", ⟨str "g0", str "Old Title", str "https://l/", 3,
       [str "medicine"], []⟩)] (str "k")
     ⟨str "g0", str "Old Title", str "https://l/", 3, [str "medicine"], []⟩
     ⟨str "neurology", str "pl", str "pt", 9, some (str "New Title"), str "k"⟩
     (str "New Title") rfl (by decide) (by decide) (by decide)⟩

/-! ### Claim C3 — stable identifiers are a function of the canonical key -/

/-- Claim C3: the identifier stored for a canonical key is
`sha256hex key`, a deterministic function of the key alone: whatever two
candidate streams (two runs) produced table entries for the same key, the
stored identifiers agree. -/
theorem guid_deterministic (es1 es2 : List Candidate) (k : Str)
    (h1 : (lookupTbl (run es1 []) k).isSome = true)
    (h2 : (lookupTbl (run es2 []) k).isSome = true) :
    ((lookupTbl (run es1 []) k).get h1).guid =
      ((lookupTbl (run es2 []) k).get h2).guid := by
  have base : ∀ (k : Str) (i : FeedItem),
      lookupTbl ([] : Table) k = some i → i.guid = sha256hex k := by
    intro k i h
    simp [lookupTbl] at h
  have g1 := guid_inv_run es1 [] base k _ (Option.some_get h1).symm
  have g2 := guid_inv_run es2 [] base k _ (Option.some_get h2).symm
  rw [g1, g2]

set_option maxHeartbeats 2000000 in
/-- Witness for C3: two different single-candidate runs (different sources,
posts and raw URLs) that resolve to the same canonical key. -/
theorem guid_deterministic_witness :
    ∃ (hh1 : (lookupTbl (run [⟨str "medicine", str "pl1", str "pt1", 1,
          some (str "Title One"), str "https://n.example/a/?utm_source=x"⟩] [])
        (str "https://n.example/a")).isSome = true)
      (hh2 : (lookupTbl (run [⟨str "neurology", str "pl2", str "pt2", 9,
          some (str "Other Title"), str "https://n.example/a"⟩] [])
        (str "https://n.example/a")).isSome = true),
      ((lookupTbl (run [⟨str "medicine", str "pl1", str "pt1", 1,
          some (str "Title One"), str "https://n.example/a/?utm_source=x"⟩] [])
        (str "https://n.example/a")).get hh1).guid =
        ((lookupTbl (run [⟨str "neurology", str "pl2", str "pt2", 9,
            some (str "Other Title"), str "https://n.example/a"⟩] [])
          (str "https://n.example/a")).get hh2).guid := by
  refine ⟨by decide, by decide, ?_⟩
  exact guid_deterministic _ _ _ _ _

/-! ### Claim C7 — short and junk titles are rejected -/

/-- Claim C7: whenever the cleaned title extracted by the cascade is shorter
than 12 characters or matches the interstitial denylist, the title resolver
returns no title; and a candidate without a resolved title leaves the
aggregation table unchanged (contributes no output item). -/
theorem title_rejection :
    (∀ (url : Str) (r : Response) (t : Str),
      cascadeTitle (r.text.take 200000) = some t →
      (t.length < 12 ∨ junkTitleSearch t = true) →
      (fetch_page_title_and_final_url url (some r)).1 = none) ∧
    (∀ (tbl : Table) (e : Candidate), e.article_title = none → step tbl e = tbl) ∧
    (∀ (tbl : Table) (e : Candidate), e.article_title = some [] → step tbl e = tbl) := by
  refine ⟨?_, step_title_none, step_title_blank⟩
  intro url r t hc hbad
  simp only [fetch_page_title_and_final_url]
  split
  · rfl
  · rw [hc]
    dsimp only
    by_cases ht0 : t = []
    · rw [if_pos ht0]
    · rw [if_neg ht0]
      by_cases hlen : t.length < 12
      · rw [if_pos hlen]
      · rw [if_neg hlen]
        rcases hbad with hbad | hbad
        · exact absurd hbad hlen
        · simp [hbad]

/-- Witness for C7 at a concrete interstitial page. -/
theorem title_rejection_witness :
    cascadeTitle ((str "<title>Just a moment...</title>").take 200000) =
      some (str "Just a moment...") ∧
    junkTitleSearch (str "Just a moment...") = true ∧
    (fetch_page_title_and_final_url (str "https://u/")
      (some ⟨str "https://u/", some (str "text/html"),
        str "<title>Just a moment...</title>"⟩)).1 = none :=
  ⟨by decide, by decide,
   title_rejection.1 (str "https://u/")
     ⟨str "https://u/", some (str "text/html"), str "<title>Just a moment...</title>"⟩
     (str "Just a moment...") (by decide) (Or.inr (by decide))⟩

/-! ### Claim C6 — output sorting and capping -/

/-- Claim C6: with more table entries than the cap, the final output holds
exactly `MAX_ITEMS` items, in non-increasing timestamp order, and they
dominate (by timestamp) everything that was cut; output plus remainder is a
permutation of all flattened items. -/
theorem output_sorted_capped (tbl : Table) (h : MAX_ITEMS < tbl.length) :
    (finalize tbl).length = MAX_ITEMS ∧
    List.Pairwise (fun a b : OutputItem => b.published ≤ a.published) (finalize tbl) ∧
    (∀ x ∈ finalize tbl,
      ∀ y ∈ ((tbl.map toOutputItem).mergeSort descOrder).drop MAX_ITEMS,
        y.published ≤ x.published) ∧
    (finalize tbl ++ ((tbl.map toOutputItem).mergeSort descOrder).drop MAX_ITEMS).Perm
      (tbl.map toOutputItem) := by
  have htrans : ∀ a b c : OutputItem,
      descOrder a b = true → descOrder b c = true → descOrder a c = true := by
    intro a b c h1 h2
    simp only [descOrder, decide_eq_true_eq] at *
    omega
  have htotal : ∀ a b : OutputItem, (descOrder a b || descOrder b a) = true := by
    intro a b
    simp only [descOrder, Bool.or_eq_true, decide_eq_true_eq]
    exact Int.le_total b.published a.published
  have hsorted := List.sorted_mergeSort htrans htotal (tbl.map toOutputItem)
  have hsorted' : List.Pairwise (fun a b : OutputItem => b.published ≤ a.published)
      ((tbl.map toOutputItem).mergeSort descOrder) :=
    hsorted.imp (by intro a b hab; simpa [descOrder] using hab)
  have hlen : ((tbl.map toOutputItem).mergeSort descOrder).length = tbl.length := by
    rw [(List.mergeSort_perm _ _).length_eq, List.length_map]
  have hsplit := List.take_append_drop MAX_ITEMS ((tbl.map toOutputItem).mergeSort descOrder)
  refine ⟨?_, ?_, ?_, ?_⟩
  · simp only [finalize, List.length_take, hlen]
    omega
  · exact hsorted'.sublist (List.take_sublist _ _)
  · intro x hx y hy
    have := (List.pairwise_append.mp (hsplit ▸ hsorted')).2.2
    exact this x hx y hy
  · rw [finalize, hsplit]
    exact List.mergeSort_perm _ _

/-- Witness for C6 at a 251-entry table. -/
theorem output_sorted_capped_witness :
    MAX_ITEMS <
      ((List.range 251).map fun n =>
        (([] : Str), (⟨[], [], [], Int.ofNat n, [], []⟩ : FeedItem))).length ∧
    (finalize ((List.range 251).map fun n =>
        (([] : Str), (⟨[], [], [], Int.ofNat n, [], []⟩ : FeedItem)))).length = MAX_ITEMS :=
  ⟨by simp only [List.length_map, List.length_range, MAX_ITEMS]; omega,
   (output_sorted_capped _
     (by simp only [List.length_map, List.length_range, MAX_ITEMS]; omega)).1⟩

/-! ### Claim C4 — idempotence of `normalize_url` -/

/-- Counterexample to C4 as stated: on `https://h/a)?utm_source=x` the first
normalization drops the tracking query, exposing the path's trailing `)`;
the second application's trimming head then strips it, so
`normalize_url ∘ normalize_url ≠ normalize_url` at this input. -/
theorem normalize_url_not_idempotent :
    normalize_url (str "https://h/a)?utm_source=x") = str "https://h/a)" ∧
    normalize_url (normalize_url (str "https://h/a)?utm_source=x")) =
      str "https://h/a" ∧
    normalize_url (normalize_url (str "https://h/a)?utm_source=x")) ≠
      normalize_url (str "https://h/a)?utm_source=x") := by
  refine ⟨by decide, by decide, by decide⟩

/-! #### List-splitting lemmas -/

theorem splitFirst?_of_not_mem (c : Char) (l : Str) (h : c ∉ l) :
    splitFirst? c l = none := by
  induction l with
  | nil => rfl
  | cons x xs ih =>
    unfold splitFirst?
    rw [if_neg (by intro hx; exact h (hx ▸ List.mem_cons_self x xs)),
      ih (fun hm => h (List.mem_cons_of_mem x hm))]

theorem splitFirst?_cons (c x : Char) (xs : Str) :
    splitFirst? c (x :: xs) =
      if x = c then some ([], xs)
      else
        match splitFirst? c xs with
        | none => none
        | some (a, b) => some (x :: a, b) := rfl

theorem splitFirst?_append (c : Char) (a b : Str) (h : c ∉ a) :
    splitFirst? c (a ++ c :: b) = some (a, b) := by
  induction a with
  | nil => simp [splitFirst?]
  | cons x xs ih =>
    have hx : x ≠ c := fun hc => h (hc ▸ List.mem_cons_self x xs)
    rw [List.cons_append, splitFirst?_cons, if_neg hx,
      ih (fun hm => h (List.mem_cons_of_mem x hm))]

theorem splitFirst?_eq_some (c : Char) (l a b : Str)
    (h : splitFirst? c l = some (a, b)) : l = a ++ c :: b ∧ c ∉ a := by
  induction l generalizing a b with
  | nil => simp [splitFirst?] at h
  | cons x xs ih =>
    rw [splitFirst?_cons] at h
    by_cases hx : x = c
    · rw [if_pos hx] at h
      simp only [Option.some.injEq, Prod.mk.injEq] at h
      rw [← h.1, ← h.2, hx]
      exact ⟨rfl, by simp⟩
    · rw [if_neg hx] at h
      cases hs : splitFirst? c xs with
      | none => rw [hs] at h; simp at h
      | some p =>
        obtain ⟨p1, p2⟩ := p
        rw [hs] at h
        simp only [Option.some.injEq, Prod.mk.injEq] at h
        obtain ⟨ha, hb⟩ := h
        obtain ⟨h1, h2⟩ := ih p1 p2 hs
        rw [← ha, ← hb]
        constructor
        · rw [List.cons_append, ← h1]
        · intro hm
          rcases List.mem_cons.mp hm with h' | h'
          · exact hx h'.symm
          · exact h2 h'

theorem splitFirst?_mem_parts (c : Char) (l a b : Str)
    (h : splitFirst? c l = some (a, b)) :
    (∀ x ∈ a, x ∈ l) ∧ (∀ x ∈ b, x ∈ l) := by
  obtain ⟨hl, _⟩ := splitFirst?_eq_some c l a b h
  subst hl
  constructor
  · intro x hx; exact List.mem_append_left _ hx
  · intro x hx; exact List.mem_append_right _ (List.mem_cons_of_mem _ hx)

theorem takeWhile_append_delim (p : Char → Bool) (a b : Str)
    (ha : ∀ x ∈ a, p x = true) (hb : b = [] ∨ ∃ y ys, b = y :: ys ∧ p y = false) :
    (a ++ b).takeWhile p = a ∧ (a ++ b).dropWhile p = b := by
  induction a with
  | nil =>
    simp only [List.nil_append]
    rcases hb with hb | ⟨y, ys, hb, hy⟩
    · subst hb; exact ⟨rfl, rfl⟩
    · subst hb
      rw [List.takeWhile_cons, List.dropWhile_cons, hy]
      exact ⟨rfl, rfl⟩
  | cons x xs ih =>
    have hx : p x = true := ha x (List.mem_cons_self x xs)
    obtain ⟨ih1, ih2⟩ := ih (fun y hy => ha y (List.mem_cons_of_mem x hy))
    rw [List.cons_append, List.takeWhile_cons, List.dropWhile_cons, hx]
    simp only [if_true]
    exact ⟨by rw [ih1], by rw [ih2]⟩

theorem replaceChar_not_mem (a b : Char) (l : Str) (h : a ∉ l) :
    replaceChar a b l = l := by
  induction l with
  | nil => rfl
  | cons x xs ih =>
    unfold replaceChar at ih ⊢
    rw [List.map_cons,
      if_neg (by intro hx; exact h (hx ▸ List.mem_cons_self x xs)),
      ih (fun hm => h (List.mem_cons_of_mem x hm))]

theorem replaceChar_cancel (l : Str) (h : '+' ∉ l) :
    replaceChar '+' ' ' (replaceChar ' ' '+' l) = l := by
  induction l with
  | nil => rfl
  | cons x xs ih =>
    have hx : x ≠ '+' := fun hc => h (hc ▸ List.mem_cons_self x xs)
    unfold replaceChar at ih ⊢
    rw [List.map_cons, List.map_cons]
    rw [ih (fun hm => h (List.mem_cons_of_mem x hm))]
    by_cases hs : x = ' '
    · rw [if_pos hs, if_pos rfl, hs]
    · rw [if_neg hs, if_neg hx]

theorem splitAll_cons (c x : Char) (xs : Str) :
    splitAll c (x :: xs) =
      if x = c then [] :: splitAll c xs
      else
        match splitAll c xs with
        | [] => [[x]]
        | a :: rest => (x :: a) :: rest := rfl

theorem splitAll_joinWith (fields : List Str)
    (h : ∀ f ∈ fields, '&' ∉ f) (hne : fields ≠ []) :
    splitAll '&' (joinWith ['&'] fields) = fields := by
  induction fields with
  | nil => exact absurd rfl hne
  | cons f fs ih =>
    have hf : '&' ∉ f := h f (List.mem_cons_self f fs)
    cases fs with
    | nil =>
      show splitAll '&' f = [f]
      clear h hne ih
      induction f with
      | nil => rfl
      | cons x xs ihx =>
        have hx : x ≠ '&' := fun hc => hf (hc ▸ List.mem_cons_self x xs)
        rw [splitAll_cons, if_neg hx,
          ihx (fun hm => hf (List.mem_cons_of_mem x hm))]
    | cons g gs =>
      have hrest := ih (fun f hf => h f (List.mem_cons_of_mem _ hf)) (by simp)
      have hj : joinWith ['&'] (f :: g :: gs) =
          f ++ ('&' :: joinWith ['&'] (g :: gs)) := by
        show f ++ ['&'] ++ joinWith ['&'] (g :: gs) = _
        rw [List.append_assoc]
        rfl
      rw [hj]
      clear h hne ih hj
      induction f with
      | nil =>
        rw [List.nil_append, splitAll_cons, if_pos rfl, hrest]
      | cons x xs ihx =>
        have hx : x ≠ '&' := fun hc => hf (hc ▸ List.mem_cons_self x xs)
        rw [List.cons_append, splitAll_cons, if_neg hx,
          ihx (fun hm => hf (List.mem_cons_of_mem x hm))]

/-! #### UTF-8 round trip -/

theorem char_valid_nat (c : Char) :
    c.toNat < 1114112 ∧ ¬(55296 ≤ c.toNat ∧ c.toNat < 57344) := by
  have h := c.valid
  have e : c.toNat = c.val.toNat := rfl
  unfold UInt32.isValidChar Nat.isValidChar at h
  rw [e]
  rcases h with h | h
  · exact ⟨by omega, by omega⟩
  · exact ⟨by omega, by omega⟩

theorem toNat_ofNat_valid (n : Nat) (h : n < 55296) : (Char.ofNat n).toNat = n := by
  unfold Char.ofNat
  rw [dif_pos]
  · rfl
  · exact Or.inl h

theorem utf8EncodeChar_ascii (c : Char) (h : c.toNat < 0x80) :
    utf8EncodeChar c = [c.toNat] := by
  simp only [utf8EncodeChar]
  rw [if_pos h]

theorem utf8EncodeChar_two (c : Char) (h1 : 0x80 ≤ c.toNat) (h2 : c.toNat < 0x800) :
    utf8EncodeChar c = [0xc0 + c.toNat / 64, 0x80 + c.toNat % 64] := by
  simp only [utf8EncodeChar]
  rw [if_neg (by omega), if_pos h2]

theorem utf8EncodeChar_three (c : Char) (h1 : 0x800 ≤ c.toNat)
    (h2 : c.toNat < 0x10000) :
    utf8EncodeChar c =
      [0xe0 + c.toNat / 4096, 0x80 + c.toNat / 64 % 64, 0x80 + c.toNat % 64] := by
  simp only [utf8EncodeChar]
  rw [if_neg (by omega), if_neg (by omega), if_pos h2]

theorem utf8EncodeChar_four (c : Char) (h1 : 0x10000 ≤ c.toNat) :
    utf8EncodeChar c =
      [0xf0 + c.toNat / 262144, 0x80 + c.toNat / 4096 % 64,
       0x80 + c.toNat / 64 % 64, 0x80 + c.toNat % 64] := by
  simp only [utf8EncodeChar]
  rw [if_neg (by omega), if_neg (by omega), if_neg (by omega)]

theorem utf8Decode_asciiByte (b : Nat) (rest : List Nat) (h : b < 0x80) :
    utf8Decode (b :: rest) = Char.ofNat b :: utf8Decode rest := by
  conv_lhs => unfold utf8Decode
  rw [if_pos h]

theorem utf8Decode_twoByte (b b2 : Nat) (rest : List Nat)
    (h1 : 0xc2 ≤ b) (h2 : b ≤ 0xdf) (hc : isCont b2 = true) :
    utf8Decode (b :: b2 :: rest) =
      Char.ofNat ((b - 0xc0) * 64 + (b2 - 0x80)) :: utf8Decode rest := by
  conv_lhs => unfold utf8Decode
  rw [if_neg (by omega), if_neg (by omega), if_pos h2]
  dsimp only
  rw [if_pos hc]

theorem utf8Decode_threeByte (b b2 b3 : Nat) (rest : List Nat)
    (h1 : 0xe0 ≤ b) (h2 : b ≤ 0xef)
    (hb2 : (if b = 0xe0 then 0xa0 else 0x80) ≤ b2 ∧
      b2 ≤ (if b = 0xed then 0x9f else 0xbf))
    (hc : isCont b3 = true) :
    utf8Decode (b :: b2 :: b3 :: rest) =
      Char.ofNat ((b - 0xe0) * 4096 + (b2 - 0x80) * 64 + (b3 - 0x80)) ::
        utf8Decode rest := by
  conv_lhs => unfold utf8Decode
  rw [if_neg (by omega), if_neg (by omega), if_neg (by omega), if_pos h2]
  dsimp only
  rw [if_pos (by simp only [Bool.and_eq_true, decide_eq_true_eq]; exact hb2)]
  rw [if_pos hc]

theorem utf8Decode_fourByte (b b2 b3 b4 : Nat) (rest : List Nat)
    (h1 : 0xf0 ≤ b) (h2 : b ≤ 0xf4)
    (hb2 : (if b = 0xf0 then 0x90 else 0x80) ≤ b2 ∧
      b2 ≤ (if b = 0xf4 then 0x8f else 0xbf))
    (hc3 : isCont b3 = true) (hc4 : isCont b4 = true) :
    utf8Decode (b :: b2 :: b3 :: b4 :: rest) =
      Char.ofNat ((b - 0xf0) * 262144 + (b2 - 0x80) * 4096 +
        (b3 - 0x80) * 64 + (b4 - 0x80)) :: utf8Decode rest := by
  conv_lhs => unfold utf8Decode
  rw [if_neg (by omega), if_neg (by omega), if_neg (by omega), if_neg (by omega),
    if_pos h2]
  dsimp only
  rw [if_pos (by simp only [Bool.and_eq_true, decide_eq_true_eq]; exact hb2)]
  rw [if_pos hc3]
  rw [if_pos hc4]

theorem utf8Decode_encodeChar (c : Char) (rest : List Nat) :
    utf8Decode (utf8EncodeChar c ++ rest) = c :: utf8Decode rest := by
  obtain ⟨hlt, hsur⟩ := char_valid_nat c
  rcases Nat.lt_or_ge c.toNat 0x80 with h1 | h1
  · rw [utf8EncodeChar_ascii c h1, List.singleton_append,
      utf8Decode_asciiByte _ _ h1, Char.ofNat_toNat]
  · rcases Nat.lt_or_ge c.toNat 0x800 with h2 | h2
    · rw [utf8EncodeChar_two c h1 h2]
      simp only [List.cons_append, List.nil_append]
      rw [utf8Decode_twoByte _ _ _ (by omega) (by omega)
        (by simp only [isCont, Bool.and_eq_true, decide_eq_true_eq]; omega)]
      have he : (0xc0 + c.toNat / 64 - 0xc0) * 64 + (0x80 + c.toNat % 64 - 0x80) =
          c.toNat := by omega
      rw [he, Char.ofNat_toNat]
    · rcases Nat.lt_or_ge c.toNat 0x10000 with h3 | h3
      · rw [utf8EncodeChar_three c h2 h3]
        simp only [List.cons_append, List.nil_append]
        rw [utf8Decode_threeByte _ _ _ _ (by omega) (by omega)
          (by constructor <;> split <;> omega)
          (by simp only [isCont, Bool.and_eq_true, decide_eq_true_eq]; omega)]
        have he : (0xe0 + c.toNat / 4096 - 0xe0) * 4096 +
            (0x80 + c.toNat / 64 % 64 - 0x80) * 64 +
            (0x80 + c.toNat % 64 - 0x80) = c.toNat := by omega
        rw [he, Char.ofNat_toNat]
      · rw [utf8EncodeChar_four c h3]
        simp only [List.cons_append, List.nil_append]
        rw [utf8Decode_fourByte _ _ _ _ _ (by omega) (by omega)
          (by constructor <;> split <;> omega)
          (by simp only [isCont, Bool.and_eq_true, decide_eq_true_eq]; omega)
          (by simp only [isCont, Bool.and_eq_true, decide_eq_true_eq]; omega)]
        have he : (0xf0 + c.toNat / 262144 - 0xf0) * 262144 +
            (0x80 + c.toNat / 4096 % 64 - 0x80) * 4096 +
            (0x80 + c.toNat / 64 % 64 - 0x80) * 64 +
            (0x80 + c.toNat % 64 - 0x80) = c.toNat := by omega
        rw [he, Char.ofNat_toNat]

theorem utf8Decode_encode (s : Str) : utf8Decode (utf8Encode s) = s := by
  induction s with
  | nil => rfl
  | cons c cs ih =>
    show utf8Decode ((c :: cs).flatMap utf8EncodeChar) = c :: cs
    rw [List.flatMap_cons, utf8Decode_encodeChar]
    exact congrArg (c :: ·) ih

theorem utf8Encode_lt (s : Str) : ∀ b ∈ utf8Encode s, b < 256 := by
  intro b hb
  rw [utf8Encode, List.mem_flatMap] at hb
  obtain ⟨c, _, hbc⟩ := hb
  obtain ⟨hlt, hsur⟩ := char_valid_nat c
  rcases Nat.lt_or_ge c.toNat 0x80 with h1 | h1
  · rw [utf8EncodeChar_ascii c h1] at hbc
    simp at hbc
    omega
  · rcases Nat.lt_or_ge c.toNat 0x800 with h2 | h2
    · rw [utf8EncodeChar_two c h1 h2] at hbc
      simp at hbc
      rcases hbc with h | h <;> omega
    · rcases Nat.lt_or_ge c.toNat 0x10000 with h3 | h3
      · rw [utf8EncodeChar_three c h2 h3] at hbc
        simp at hbc
        rcases hbc with h | h | h <;> omega
      · rw [utf8EncodeChar_four c h3] at hbc
        simp at hbc
        rcases hbc with h | h | h | h <;> omega

/-! #### Percent-encoding round trip -/

theorem hexDigitU_alwaysSafe (n : Nat) (h : n < 16) :
    isAlwaysSafe (hexDigitU n) = true := by
  interval_cases n <;> decide

theorem hexDigitU_isHex (n : Nat) (h : n < 16) :
    isHexDigitChar (hexDigitU n) = true := by
  interval_cases n <;> decide

theorem hexVal_hexDigitU (n : Nat) (h : n < 16) : hexVal (hexDigitU n) = n := by
  interval_cases n <;> decide

theorem quoteBytes_nil (safe : List Char) : quoteBytes safe [] = [] := rfl

theorem quoteBytes_cons (safe : List Char) (b : Nat) (bs : List Nat) :
    quoteBytes safe (b :: bs) =
      (if b ≤ 0x7f && (isAlwaysSafe (Char.ofNat b) || decide (Char.ofNat b ∈ safe))
       then [Char.ofNat b]
       else ['%', hexDigitU (b / 16), hexDigitU (b % 16)]) ++ quoteBytes safe bs := rfl

theorem quoteBytes_append (safe : List Char) (xs ys : List Nat) :
    quoteBytes safe (xs ++ ys) = quoteBytes safe xs ++ quoteBytes safe ys :=
  List.flatMap_append xs ys _

theorem quoteBytes_chars (safe : List Char) (bs : List Nat)
    (hb : ∀ b ∈ bs, b < 256) :
    ∀ x ∈ quoteBytes safe bs, isAlwaysSafe x = true ∨ x ∈ safe ∨ x = '%' := by
  intro x hx
  induction bs with
  | nil => simp [quoteBytes_nil] at hx
  | cons b bs ih =>
    have hb' : b < 256 := hb b (List.mem_cons_self b bs)
    rw [quoteBytes_cons] at hx
    rcases List.mem_append.mp hx with h | h
    · by_cases hcond :
        (b ≤ 0x7f && (isAlwaysSafe (Char.ofNat b) || decide (Char.ofNat b ∈ safe))) = true
      · rw [if_pos hcond] at h
        simp only [List.mem_singleton] at h
        subst h
        rcases Bool.and_eq_true_iff.mp hcond with ⟨_, h2⟩
        rcases Bool.or_eq_true_iff.mp h2 with h3 | h3
        · exact Or.inl h3
        · exact Or.inr (Or.inl (by simpa using h3))
      · rw [if_neg hcond] at h
        simp only [List.mem_cons, List.mem_singleton] at h
        rcases h with h | h | h
        · exact Or.inr (Or.inr h)
        · exact Or.inl (h ▸ hexDigitU_alwaysSafe _ (by omega))
        · simp at h
          exact Or.inl (h ▸ hexDigitU_alwaysSafe _ (by omega))
    · exact ih (fun y hy => hb y (List.mem_cons_of_mem b hy)) h

theorem quote_plus_chars (s : Str) :
    ∀ x ∈ quote_plus s, isAlwaysSafe x = true ∨ x = '+' ∨ x = '%' := by
  intro x hx
  unfold quote_plus pyQuote at hx
  by_cases hsp : ' ' ∈ s
  · rw [if_pos hsp] at hx
    unfold replaceChar at hx
    rw [List.mem_map] at hx
    obtain ⟨y, hy, hxy⟩ := hx
    rcases quoteBytes_chars [' '] _ (utf8Encode_lt s) y hy with h | h | h
    · have hys : y ≠ ' ' := by
        intro hc
        rw [hc] at h
        exact absurd h (by decide)
      rw [if_neg hys] at hxy
      exact Or.inl (hxy ▸ h)
    · simp only [List.mem_singleton] at h
      rw [h, if_pos rfl] at hxy
      exact Or.inr (Or.inl hxy.symm)
    · have hys : y ≠ ' ' := by rw [h]; decide
      rw [if_neg hys] at hxy
      exact Or.inr (Or.inr (hxy ▸ h))
  · rw [if_neg hsp] at hx
    rcases quoteBytes_chars [] _ (utf8Encode_lt s) x hx with h | h | h
    · exact Or.inl h
    · simp at h
    · exact Or.inr (Or.inr h)

theorem not_mem_quote_plus (s : Str) (c : Char) (h1 : isAlwaysSafe c = false)
    (h2 : c ≠ '+') (h3 : c ≠ '%') : c ∉ quote_plus s := by
  intro hm
  rcases quote_plus_chars s c hm with h | h | h
  · rw [h1] at h; cases h
  · exact h2 h
  · exact h3 h

theorem joinWith_mem (sep : Str) (parts : List Str) (x : Char)
    (h : x ∈ joinWith sep parts) : x ∈ sep ∨ ∃ p ∈ parts, x ∈ p := by
  induction parts with
  | nil => simp [joinWith] at h
  | cons p ps ih =>
    cases ps with
    | nil =>
      exact Or.inr ⟨p, List.mem_cons_self p [], h⟩
    | cons q qs =>
      have hj : joinWith sep (p :: q :: qs) = p ++ sep ++ joinWith sep (q :: qs) := rfl
      rw [hj] at h
      rcases List.mem_append.mp h with h' | h'
      · rcases List.mem_append.mp h' with h'' | h''
        · exact Or.inr ⟨p, List.mem_cons_self p _, h''⟩
        · exact Or.inl h''
      · rcases ih h' with h'' | ⟨r, hr, hxr⟩
        · exact Or.inl h''
        · exact Or.inr ⟨r, List.mem_cons_of_mem p hr, hxr⟩

theorem urlencode_chars (q : List (Str × Str)) :
    ∀ x ∈ urlencode q,
      isAlwaysSafe x = true ∨ x = '+' ∨ x = '%' ∨ x = '&' ∨ x = '=' := by
  intro x hx
  unfold urlencode at hx
  rcases joinWith_mem _ _ _ hx with h | ⟨p, hp, hxp⟩
  · simp only [List.mem_singleton] at h
    exact Or.inr (Or.inr (Or.inr (Or.inl h)))
  · rw [List.mem_map] at hp
    obtain ⟨kv, _, hkv⟩ := hp
    subst hkv
    rcases List.mem_append.mp hxp with h | h
    · rcases quote_plus_chars _ _ h with h' | h' | h'
      · exact Or.inl h'
      · exact Or.inr (Or.inl h')
      · exact Or.inr (Or.inr (Or.inl h'))
    · rcases List.mem_cons.mp h with h' | h'
      · exact Or.inr (Or.inr (Or.inr (Or.inr h')))
      · rcases quote_plus_chars _ _ h' with h'' | h'' | h''
        · exact Or.inl h''
        · exact Or.inr (Or.inl h'')
        · exact Or.inr (Or.inr (Or.inl h''))

theorem not_mem_urlencode (q : List (Str × Str)) (c : Char)
    (h1 : isAlwaysSafe c = false) (h2 : c ≠ '+') (h3 : c ≠ '%') (h4 : c ≠ '&')
    (h5 : c ≠ '=') : c ∉ urlencode q := by
  intro hm
  rcases urlencode_chars q c hm with h | h | h | h | h
  · rw [h1] at h; cases h
  · exact h2 h
  · exact h3 h
  · exact h4 h
  · exact h5 h

theorem unquoteToBytes_cons_ne (c : Char) (rest : Str) (h : c ≠ '%') :
    unquoteToBytes (c :: rest) = c.toNat :: unquoteToBytes rest := by
  rw [unquoteToBytes.eq_def]
  split
  · rename_i heq
    cases heq
  · rename_i c1 c2 r heq
    rw [List.cons.injEq] at heq
    exact absurd heq.1 h
  · rename_i heq hne
    injection hne with e1 e2
    rw [e1, e2]

theorem unquoteToBytes_escape (c1 c2 : Char) (rest : Str)
    (hh : (isHexDigitChar c1 && isHexDigitChar c2) = true) :
    unquoteToBytes ('%' :: c1 :: c2 :: rest) =
      (hexVal c1 * 16 + hexVal c2) :: unquoteToBytes rest := by
  rw [unquoteToBytes.eq_def]
  split
  · rename_i heq
    cases heq
  · rename_i d1 d2 r heq
    injection heq with e0 heq1
    injection heq1 with e1 heq2
    injection heq2 with e2 e3
    rw [← e1, ← e2, ← e3, if_pos hh]
  · rename_i heq hne
    injection hne with e1 e2
    exact absurd (heq c1 c2 rest e1.symm e2.symm) (fun f => f)

theorem unquoteToBytes_quoteBytes (safe : List Char) (hsafe : '%' ∉ safe)
    (bs : List Nat) (hb : ∀ b ∈ bs, b < 256) :
    unquoteToBytes (quoteBytes safe bs) = bs := by
  induction bs with
  | nil => rfl
  | cons b bs ih =>
    have hb' : b < 256 := hb b (List.mem_cons_self b bs)
    have ih' := ih (fun y hy => hb y (List.mem_cons_of_mem b hy))
    rw [quoteBytes_cons]
    by_cases hcond :
        (b ≤ 0x7f && (isAlwaysSafe (Char.ofNat b) || decide (Char.ofNat b ∈ safe))) = true
    · rw [if_pos hcond, List.singleton_append]
      obtain ⟨hb7, h2⟩ := Bool.and_eq_true_iff.mp hcond
      have hb7' : b ≤ 0x7f := by simpa using hb7
      have hne : Char.ofNat b ≠ '%' := by
        intro hc
        rw [hc] at h2
        rcases Bool.or_eq_true_iff.mp h2 with h3 | h3
        · exact absurd h3 (by decide)
        · exact hsafe (by simpa using h3)
      rw [unquoteToBytes_cons_ne _ _ hne, toNat_ofNat_valid b (by omega), ih']
    · rw [if_neg hcond]
      simp only [List.cons_append, List.nil_append]
      rw [unquoteToBytes_escape _ _ _
        (by rw [hexDigitU_isHex _ (by omega), hexDigitU_isHex _ (by omega)]; rfl)]
      rw [hexVal_hexDigitU _ (by omega), hexVal_hexDigitU _ (by omega), ih']
      have : b / 16 * 16 + b % 16 = b := by omega
      rw [this]

theorem unquoteChunks_nil (fuel : Nat) : unquoteChunks fuel [] = [] := by
  cases fuel <;> rfl

theorem unquoteChunks_allAscii (fuel : Nat) (u : Str)
    (h : ∀ c ∈ u, isAsciiChar c = true) (hf : u.length ≤ fuel) :
    unquoteChunks fuel u = utf8Decode (unquoteToBytes u) := by
  cases u with
  | nil => rw [unquoteChunks_nil]; rfl
  | cons c cs =>
    cases fuel with
    | zero => simp at hf
    | succ f =>
      have ht : (c :: cs).takeWhile isAsciiChar = c :: cs :=
        List.takeWhile_eq_self_iff.mpr h
      have hd : (c :: cs).dropWhile isAsciiChar = [] :=
        List.dropWhile_eq_nil_iff.mpr h
      simp only [unquoteChunks, ht, hd, unquoteChunks_nil, List.append_nil]

theorem unquote_allAscii (u : Str) (h : ∀ c ∈ u, isAsciiChar c = true) :
    unquote u = if '%' ∈ u then utf8Decode (unquoteToBytes u) else u := by
  unfold unquote
  by_cases hp : '%' ∈ u
  · rw [if_pos hp, if_pos hp, unquoteChunks_allAscii u.length u h (le_refl _)]
  · rw [if_neg hp, if_neg hp]

theorem alwaysSafe_ascii (c : Char) (h : isAlwaysSafe c = true) :
    isAsciiChar c = true := by
  unfold isAlwaysSafe isAsciiAlnum isAsciiAlpha isAsciiDigit at h
  unfold isAsciiChar
  simp only [Bool.or_eq_true, Bool.and_eq_true, decide_eq_true_eq] at h ⊢
  rcases h with (((((⟨h1, h2⟩ | ⟨h1, h2⟩) | ⟨h1, h2⟩) | h) | h) | h) | h
  · have h2' : c.toNat ≤ 122 := h2
    omega
  · have h2' : c.toNat ≤ 90 := h2
    omega
  · have h2' : c.toNat ≤ 57 := h2
    omega
  all_goals (subst h; decide)

theorem quoteBytes_encode_no_percent (safe : List Char) (s : Str)
    (h : '%' ∉ quoteBytes safe (utf8Encode s)) :
    quoteBytes safe (utf8Encode s) = s := by
  induction s with
  | nil => rfl
  | cons c cs ih =>
    have henc : utf8Encode (c :: cs) = utf8EncodeChar c ++ utf8Encode cs := rfl
    rw [henc, quoteBytes_append] at h ⊢
    have hsplit := h
    have h1 : '%' ∉ quoteBytes safe (utf8EncodeChar c) := by
      intro hm; exact h (List.mem_append_left _ hm)
    have h2 : '%' ∉ quoteBytes safe (utf8Encode cs) := by
      intro hm; exact h (List.mem_append_right _ hm)
    obtain ⟨hlt, hsur⟩ := char_valid_nat c
    by_cases hc : c.toNat < 0x80
    · rw [utf8EncodeChar_ascii c hc] at h1 ⊢
      rw [show ([c.toNat] : List Nat) = c.toNat :: [] from rfl, quoteBytes_cons,
        quoteBytes_nil, List.append_nil] at h1 ⊢
      by_cases hcond :
          (c.toNat ≤ 0x7f &&
            (isAlwaysSafe (Char.ofNat c.toNat) || decide (Char.ofNat c.toNat ∈ safe))) = true
      · rw [if_pos hcond]
        rw [Char.ofNat_toNat, List.singleton_append]
        exact congrArg (c :: ·) (ih h2)
      · rw [if_neg hcond] at h1
        exact absurd (List.mem_cons_self '%' _) h1
    · exfalso
      apply h1
      have hfirst : ∃ b rest0, utf8EncodeChar c = b :: rest0 ∧ 0x80 < b := by
        rcases Nat.lt_or_ge c.toNat 0x800 with hr | hr
        · exact ⟨_, _, utf8EncodeChar_two c (by omega) hr, by omega⟩
        · rcases Nat.lt_or_ge c.toNat 0x10000 with hr2 | hr2
          · exact ⟨_, _, utf8EncodeChar_three c (by omega) hr2, by omega⟩
          · exact ⟨_, _, utf8EncodeChar_four c (by omega), by omega⟩
      obtain ⟨b, rest0, hb, hbig⟩ := hfirst
      rw [hb, quoteBytes_cons, if_neg (by simp; omega)]
      exact List.mem_append_left _ (List.mem_cons_self '%' _)

theorem unquote_quoteBytes_encode (safe : List Char) (hsafe : '%' ∉ safe)
    (hascii : ∀ c ∈ safe, isAsciiChar c = true) (s : Str) :
    unquote (quoteBytes safe (utf8Encode s)) = s := by
  have hchars : ∀ c ∈ quoteBytes safe (utf8Encode s), isAsciiChar c = true := by
    intro x hx
    rcases quoteBytes_chars safe _ (utf8Encode_lt s) x hx with h | h | h
    · exact alwaysSafe_ascii x h
    · exact hascii x h
    · rw [h]; decide
  rw [unquote_allAscii _ hchars]
  by_cases hp : '%' ∈ quoteBytes safe (utf8Encode s)
  · rw [if_pos hp, unquoteToBytes_quoteBytes safe hsafe _ (utf8Encode_lt s),
      utf8Decode_encode]
  · rw [if_neg hp]
    exact quoteBytes_encode_no_percent safe s hp

theorem qslDecode_quote_plus (s : Str) : qslDecode (quote_plus s) = s := by
  unfold qslDecode quote_plus pyQuote
  by_cases hsp : ' ' ∈ s
  · rw [if_pos hsp]
    have hplus : '+' ∉ quoteBytes [' '] (utf8Encode s) := by
      intro hm
      rcases quoteBytes_chars [' '] _ (utf8Encode_lt s) '+' hm with h | h | h
      · exact absurd h (by decide)
      · simp at h
      · exact absurd h (by decide)
    rw [replaceChar_cancel _ hplus]
    exact unquote_quoteBytes_encode [' '] (by decide) (by decide) s
  · rw [if_neg hsp]
    have hplus : '+' ∉ quoteBytes [] (utf8Encode s) := by
      intro hm
      rcases quoteBytes_chars [] _ (utf8Encode_lt s) '+' hm with h | h | h
      · exact absurd h (by decide)
      · simp at h
      · exact absurd h (by decide)
    rw [replaceChar_not_mem _ _ _ hplus]
    exact unquote_quoteBytes_encode [] (by decide) (by decide) s

/-! #### `parse_qsl` after `urlencode` -/

theorem splitAll_single (c : Char) (f : Str) (hf : c ∉ f) :
    splitAll c f = [f] := by
  induction f with
  | nil => rfl
  | cons x xs ih =>
    have hx : x ≠ c := fun hc => hf (hc ▸ List.mem_cons_self x xs)
    rw [splitAll_cons, if_neg hx, ih (fun hm => hf (List.mem_cons_of_mem x hm))]

theorem splitAll_append_delim (c : Char) (a b : Str) (ha : c ∉ a) :
    splitAll c (a ++ c :: b) = a :: splitAll c b := by
  induction a with
  | nil =>
    rw [List.nil_append, splitAll_cons, if_pos rfl]
  | cons x xs ih =>
    have hx : x ≠ c := fun hc => ha (hc ▸ List.mem_cons_self x xs)
    rw [List.cons_append, splitAll_cons, if_neg hx,
      ih (fun hm => ha (List.mem_cons_of_mem x hm))]

theorem amp_not_mem_field (k v : Str) :
    '&' ∉ quote_plus k ++ '=' :: quote_plus v := by
  intro hm
  rcases List.mem_append.mp hm with h | h
  · exact not_mem_quote_plus k '&' (by decide) (by decide) (by decide) h
  · rcases List.mem_cons.mp h with h | h
    · exact absurd h (by decide)
    · exact not_mem_quote_plus v '&' (by decide) (by decide) (by decide) h

theorem parse_qsl_field_cons (k v : Str) (tail : Str) :
    parse_qsl true ((quote_plus k ++ '=' :: quote_plus v) ++ '&' :: tail) =
      (k, v) :: parse_qsl true tail := by
  unfold parse_qsl
  rw [splitAll_append_delim '&' _ tail (amp_not_mem_field k v), List.foldr_cons]
  cases hfld : quote_plus k ++ '=' :: quote_plus v with
  | nil => simp at hfld
  | cons c cs =>
    dsimp only
    rw [← hfld,
      splitFirst?_append '=' _ _
        (not_mem_quote_plus k '=' (by decide) (by decide) (by decide))]
    dsimp only
    rw [if_pos (by rw [Bool.or_true]), qslDecode_quote_plus, qslDecode_quote_plus]

theorem parse_qsl_field_single (k v : Str) :
    parse_qsl true (quote_plus k ++ '=' :: quote_plus v) = [(k, v)] := by
  unfold parse_qsl
  rw [splitAll_single '&' _ (amp_not_mem_field k v), List.foldr_cons]
  cases hfld : quote_plus k ++ '=' :: quote_plus v with
  | nil => simp at hfld
  | cons c cs =>
    dsimp only
    rw [← hfld,
      splitFirst?_append '=' _ _
        (not_mem_quote_plus k '=' (by decide) (by decide) (by decide))]
    dsimp only
    rw [if_pos (by rw [Bool.or_true]), qslDecode_quote_plus, qslDecode_quote_plus,
      List.foldr_nil]

/-- Re-parsing an `urlencode`d query (with `keep_blank_values=True`, the call
`normalize_url` makes) recovers the pair list exactly. -/
theorem parse_qsl_urlencode (q : List (Str × Str)) :
    parse_qsl true (urlencode q) = q := by
  induction q with
  | nil => rfl
  | cons kv rest ih =>
    cases rest with
    | nil =>
      show parse_qsl true (quote_plus kv.1 ++ '=' :: quote_plus kv.2) = [kv]
      rw [parse_qsl_field_single]
    | cons g gs =>
      have hj : urlencode (kv :: g :: gs) =
          (quote_plus kv.1 ++ '=' :: quote_plus kv.2) ++ '&' :: urlencode (g :: gs) := by
        show (quote_plus kv.1 ++ '=' :: quote_plus kv.2) ++ ['&'] ++
            joinWith ['&']
              ((g :: gs).map fun kv => quote_plus kv.1 ++ '=' :: quote_plus kv.2) = _
        rw [List.append_assoc]
        rfl
      rw [hj, parse_qsl_field_cons, ih]

/-! #### `str.lower` and scheme recognition -/

theorem asciiLower_toNat (c : Char) :
    (asciiLower c).toNat =
      if 65 ≤ c.toNat ∧ c.toNat ≤ 90 then c.toNat + 32 else c.toNat := by
  unfold asciiLower
  by_cases h : ('A' ≤ c && c ≤ 'Z') = true
  · obtain ⟨h1, h2⟩ := Bool.and_eq_true_iff.mp h
    have h1' : 65 ≤ c.toNat := of_decide_eq_true h1
    have h2' : c.toNat ≤ 90 := of_decide_eq_true h2
    rw [if_pos h, if_pos ⟨h1', h2'⟩, toNat_ofNat_valid _ (by omega)]
  · have hnot : ¬(65 ≤ c.toNat ∧ c.toNat ≤ 90) := by
      intro hr
      exact h (Bool.and_eq_true_iff.mpr
        ⟨decide_eq_true (show ('A' : Char) ≤ c from hr.1),
         decide_eq_true (show c ≤ 'Z' from hr.2)⟩)
    rw [if_neg h, if_neg hnot]

theorem asciiLower_eq_self (c : Char) (h : ¬(65 ≤ c.toNat ∧ c.toNat ≤ 90)) :
    asciiLower c = c := by
  unfold asciiLower
  have hb : ¬('A' ≤ c && c ≤ 'Z') = true := by
    intro hb
    obtain ⟨h1, h2⟩ := Bool.and_eq_true_iff.mp hb
    exact h ⟨of_decide_eq_true h1, of_decide_eq_true h2⟩
  rw [if_neg hb]

theorem asciiLower_idem (c : Char) : asciiLower (asciiLower c) = asciiLower c := by
  by_cases h : 65 ≤ c.toNat ∧ c.toNat ≤ 90
  · have ht : (asciiLower c).toNat = c.toNat + 32 := by
      rw [asciiLower_toNat, if_pos h]
    exact asciiLower_eq_self _ (by rw [ht]; omega)
  · rw [asciiLower_eq_self c h, asciiLower_eq_self c h]

theorem asciiLower_alpha (c : Char) (h : isAsciiAlpha c = true) :
    isAsciiAlpha (asciiLower c) = true := by
  unfold isAsciiAlpha at h ⊢
  simp only [Bool.or_eq_true, Bool.and_eq_true, decide_eq_true_eq] at h ⊢
  have ht := asciiLower_toNat c
  rcases h with ⟨h1, h2⟩ | ⟨h1, h2⟩
  · have h1' : 97 ≤ c.toNat := h1
    have h2' : c.toNat ≤ 122 := h2
    rw [if_neg (by omega)] at ht
    exact Or.inl ⟨show 97 ≤ (asciiLower c).toNat by omega,
      show (asciiLower c).toNat ≤ 122 by omega⟩
  · have h1' : 65 ≤ c.toNat := h1
    have h2' : c.toNat ≤ 90 := h2
    rw [if_pos ⟨h1', h2'⟩] at ht
    exact Or.inl ⟨show 97 ≤ (asciiLower c).toNat by omega,
      show (asciiLower c).toNat ≤ 122 by omega⟩

theorem asciiLower_schemeChar (c : Char) (h : schemeChar c = true) :
    schemeChar (asciiLower c) = true := by
  unfold schemeChar isAsciiAlnum isAsciiDigit at h ⊢
  simp only [Bool.or_eq_true] at h ⊢
  rcases h with (((h | h) | h) | h) | h
  · exact Or.inl (Or.inl (Or.inl (Or.inl (asciiLower_alpha c h))))
  · have h1 : 48 ≤ c.toNat := of_decide_eq_true (Bool.and_eq_true_iff.mp h).1
    have h2 : c.toNat ≤ 57 := of_decide_eq_true (Bool.and_eq_true_iff.mp h).2
    rw [asciiLower_eq_self c (by omega)]
    exact Or.inl (Or.inl (Or.inl (Or.inr h)))
  · have he : c = '+' := of_decide_eq_true h
    rw [he]; decide
  · have he : c = '-' := of_decide_eq_true h
    rw [he]; decide
  · have he : c = '.' := of_decide_eq_true h
    rw [he]; decide

theorem lowerStr_idem (s : Str) : lowerStr (lowerStr s) = lowerStr s := by
  induction s with
  | nil => rfl
  | cons x xs ih =>
    show asciiLower (asciiLower x) :: lowerStr (lowerStr xs) =
      asciiLower x :: lowerStr xs
    rw [asciiLower_idem, ih]

theorem schemeChar_ne_colon (c : Char) (h : schemeChar c = true) : c ≠ ':' := by
  intro hc
  rw [hc] at h
  exact absurd h (by decide)

theorem asciiLower_unsafeChars (c : Char) (h : asciiLower c ∈ UNSAFE_CHARS) :
    c ∈ UNSAFE_CHARS := by
  by_cases hup : 65 ≤ c.toNat ∧ c.toNat ≤ 90
  · exfalso
    have ht : (asciiLower c).toNat = c.toNat + 32 := by
      rw [asciiLower_toNat, if_pos hup]
    simp only [UNSAFE_CHARS, List.mem_cons, List.not_mem_nil, or_false] at h
    rcases h with h | h | h <;>
      { have := congrArg Char.toNat h
        rw [ht] at this
        simp only [show (Char.ofNat 9).toNat = 9 from rfl,
          show (Char.ofNat 13).toNat = 13 from rfl,
          show (Char.ofNat 10).toNat = 10 from rfl] at this
        omega }
  · rw [asciiLower_eq_self c hup] at h
    exact h

theorem splitScheme_reparse (s tail : Str) (c0 : Char) (srest : Str)
    (hs : s = c0 :: srest) (h1 : isAsciiAlpha c0 = true)
    (h2 : srest.all schemeChar = true) (hcolon : ':' ∉ s)
    (hlow : lowerStr s = s) :
    splitScheme (s ++ ':' :: tail) = (s, tail) := by
  unfold splitScheme
  rw [splitFirst?_append ':' s tail hcolon]
  dsimp only
  rw [hs]
  dsimp only
  rw [if_pos (Bool.and_eq_true_iff.mpr ⟨h1, h2⟩), ← hs, hlow]

theorem splitScheme_spec (u s rest : Str) (h : splitScheme u = (s, rest)) :
    (s = [] ∧ rest = u) ∨
    (∃ c0 brest, s = lowerStr (c0 :: brest) ∧ isAsciiAlpha c0 = true ∧
      brest.all schemeChar = true ∧ u = (c0 :: brest) ++ ':' :: rest ∧
      ':' ∉ (c0 :: brest : Str)) := by
  unfold splitScheme at h
  cases hsp : splitFirst? ':' u with
  | none =>
    rw [hsp] at h
    simp only [Prod.mk.injEq] at h
    exact Or.inl ⟨h.1.symm, h.2.symm⟩
  | some p =>
    obtain ⟨bef, aft⟩ := p
    rw [hsp] at h
    obtain ⟨hu, hnc⟩ := splitFirst?_eq_some ':' u bef aft hsp
    cases hbef : bef with
    | nil =>
      rw [hbef] at h
      simp only [Prod.mk.injEq] at h
      exact Or.inl ⟨h.1.symm, h.2.symm⟩
    | cons c0 brest =>
      rw [hbef] at h
      dsimp only at h
      by_cases hcond : (isAsciiAlpha c0 && brest.all schemeChar) = true
      · rw [if_pos hcond] at h
        simp only [Prod.mk.injEq] at h
        obtain ⟨hcond1, hcond2⟩ := Bool.and_eq_true_iff.mp hcond
        refine Or.inr ⟨c0, brest, h.1.symm, hcond1, hcond2, ?_, ?_⟩
        · rw [hu, hbef, h.2]
        · rw [hbef] at hnc; exact hnc
      · rw [if_neg hcond] at h
        simp only [Prod.mk.injEq] at h
        exact Or.inl ⟨h.1.symm, h.2.symm⟩

/-! #### `urlsplit` of a rebuilt URL -/

theorem not_unsafe_append (a b : Str) (ha : ∀ c ∈ a, c ∉ UNSAFE_CHARS)
    (hb : ∀ c ∈ b, c ∉ UNSAFE_CHARS) : ∀ c ∈ a ++ b, c ∉ UNSAFE_CHARS :=
  fun c hc => (List.mem_append.mp hc).elim (ha c) (hb c)

theorem not_unsafe_cons (x : Char) (b : Str) (hx : x ∉ UNSAFE_CHARS)
    (hb : ∀ c ∈ b, c ∉ UNSAFE_CHARS) : ∀ c ∈ x :: b, c ∉ UNSAFE_CHARS :=
  fun c hc => (List.mem_cons.mp hc).elim (fun h => h ▸ hx) (hb c)

theorem removeUnsafe_safe (l : Str) (h : ∀ c ∈ l, c ∉ UNSAFE_CHARS) :
    removeUnsafe l = l := by
  unfold removeUnsafe
  rw [List.filter_eq_self]
  intro a ha
  simp [h a ha]

theorem scheme_no_colon (c0 : Char) (srest : Str) (h1 : isAsciiAlpha c0 = true)
    (h2 : srest.all schemeChar = true) : ':' ∉ (c0 :: srest : Str) := by
  intro hm
  rcases List.mem_cons.mp hm with h | h
  · rw [← h] at h1
    exact absurd h1 (by decide)
  · have := List.all_eq_true.mp h2 ':' h
    exact absurd this (by decide)

theorem path_delim_head (path X : Str) (hpath : path = [] ∨ path.head? = some '/')
    (hX : X = [] ∨ ∃ y ys, X = y :: ys ∧ (fun c => !netlocDelim c) y = false) :
    path ++ X = [] ∨
      ∃ y ys, path ++ X = y :: ys ∧ (fun c => !netlocDelim c) y = false := by
  rcases hpath with hp | hp
  · subst hp
    rw [List.nil_append]
    exact hX
  · cases path with
    | nil => simp at hp
    | cons p0 pt =>
      have hp0 : p0 = '/' := by simpa using hp
      exact Or.inr ⟨p0, pt ++ X, rfl, by rw [hp0]; decide⟩

/-- Re-splitting a URL reassembled by `urlunsplit` from well-formed components
(as produced by a successful `urlsplit` with nonempty netloc) recovers the
components exactly. -/
theorem urlsplitE_unsplit (scheme netloc path query fragment : Str)
    (c0 : Char) (srest : Str) (hs : scheme = c0 :: srest)
    (hsc1 : isAsciiAlpha c0 = true) (hsc2 : srest.all schemeChar = true)
    (hlow : lowerStr scheme = scheme)
    (hn_ne : netloc ≠ [])
    (hn_delim : ∀ c ∈ netloc, netlocDelim c = false)
    (hn_ok : netlocOk netloc = true)
    (hpath : path = [] ∨ path.head? = some '/')
    (hpq : '?' ∉ path) (hph : '#' ∉ path) (hqh : '#' ∉ query)
    (hsafe_s : ∀ c ∈ scheme, c ∉ UNSAFE_CHARS)
    (hsafe_n : ∀ c ∈ netloc, c ∉ UNSAFE_CHARS)
    (hsafe_p : ∀ c ∈ path, c ∉ UNSAFE_CHARS)
    (hsafe_q : ∀ c ∈ query, c ∉ UNSAFE_CHARS)
    (hsafe_f : ∀ c ∈ fragment, c ∉ UNSAFE_CHARS) :
    urlsplitE (urlunsplit scheme netloc path query fragment) =
      .ok ⟨scheme, netloc, path, query, fragment⟩ := by
  have hcolon : ':' ∉ scheme := by
    rw [hs]; exact scheme_no_colon c0 srest hsc1 hsc2
  have hinsert :
      (if path ≠ [] && path.head? ≠ some '/' then '/' :: path else path) = path := by
    rcases hpath with hp | hp
    · subst hp; rfl
    · simp [hp]
  have hall : ∀ c ∈ netloc, (fun c => !netlocDelim c) c = true :=
    fun c hc => by simp [hn_delim c hc]
  by_cases hq : query = [] <;> by_cases hf : fragment = []
  · -- no query, no fragment
    subst hq; subst hf
    have hy : urlunsplit scheme netloc path [] [] =
        scheme ++ ':' :: '/' :: '/' :: (netloc ++ path) := by
      unfold urlunsplit
      rw [hinsert]
      simp [hn_ne, hs, show str "//" = ['/', '/'] from rfl, List.append_assoc]
    have hch : ∀ c ∈ scheme ++ ':' :: '/' :: '/' :: (netloc ++ path),
        c ∉ UNSAFE_CHARS :=
      not_unsafe_append _ _ hsafe_s (not_unsafe_cons _ _ (by decide)
        (not_unsafe_cons _ _ (by decide) (not_unsafe_cons _ _ (by decide)
          (not_unsafe_append _ _ hsafe_n hsafe_p))))
    have hb := path_delim_head path [] hpath (Or.inl rfl)
    rw [List.append_nil] at hb
    have htd := takeWhile_append_delim (fun c => !netlocDelim c) netloc path hall hb
    rw [hy]
    unfold urlsplitE
    dsimp only
    rw [removeUnsafe_safe _ hch,
      splitScheme_reparse scheme _ c0 srest hs hsc1 hsc2 hcolon hlow]
    dsimp only
    rw [if_pos (show List.take 2 (('/' : Char) :: '/' :: (netloc ++ path)) =
        str "//" from rfl),
      show List.drop 2 (('/' : Char) :: '/' :: (netloc ++ path)) = netloc ++ path
        from rfl]
    rw [htd.1, htd.2, if_pos hn_ok]
    dsimp only
    rw [splitFirst?_of_not_mem '#' path hph]
    dsimp only
    rw [splitFirst?_of_not_mem '?' path hpq]
  · -- fragment only
    subst hq
    have hy : urlunsplit scheme netloc path [] fragment =
        scheme ++ ':' :: '/' :: '/' :: (netloc ++ (path ++ '#' :: fragment)) := by
      unfold urlunsplit
      rw [hinsert]
      simp [hn_ne, hs, hf, show str "//" = ['/', '/'] from rfl, List.append_assoc]
    have hch : ∀ c ∈ scheme ++ ':' :: '/' :: '/' ::
        (netloc ++ (path ++ '#' :: fragment)), c ∉ UNSAFE_CHARS :=
      not_unsafe_append _ _ hsafe_s (not_unsafe_cons _ _ (by decide)
        (not_unsafe_cons _ _ (by decide) (not_unsafe_cons _ _ (by decide)
          (not_unsafe_append _ _ hsafe_n (not_unsafe_append _ _ hsafe_p
            (not_unsafe_cons '#' _ (by decide) hsafe_f))))))
    have hb := path_delim_head path ('#' :: fragment) hpath
      (Or.inr ⟨'#', fragment, rfl, by decide⟩)
    have htd := takeWhile_append_delim (fun c => !netlocDelim c) netloc
      (path ++ '#' :: fragment) hall hb
    rw [hy]
    unfold urlsplitE
    dsimp only
    rw [removeUnsafe_safe _ hch,
      splitScheme_reparse scheme _ c0 srest hs hsc1 hsc2 hcolon hlow]
    dsimp only
    rw [if_pos (show List.take 2
          (('/' : Char) :: '/' :: (netloc ++ (path ++ '#' :: fragment))) =
        str "//" from rfl),
      show List.drop 2 (('/' : Char) :: '/' :: (netloc ++ (path ++ '#' :: fragment))) =
        netloc ++ (path ++ '#' :: fragment) from rfl]
    rw [htd.1, htd.2, if_pos hn_ok]
    dsimp only
    rw [splitFirst?_append '#' path fragment hph]
    dsimp only
    rw [splitFirst?_of_not_mem '?' path hpq]
  · -- query only
    subst hf
    have hy : urlunsplit scheme netloc path query [] =
        scheme ++ ':' :: '/' :: '/' :: (netloc ++ (path ++ '?' :: query)) := by
      unfold urlunsplit
      rw [hinsert]
      simp [hn_ne, hs, hq, show str "//" = ['/', '/'] from rfl, List.append_assoc]
    have hch : ∀ c ∈ scheme ++ ':' :: '/' :: '/' ::
        (netloc ++ (path ++ '?' :: query)), c ∉ UNSAFE_CHARS :=
      not_unsafe_append _ _ hsafe_s (not_unsafe_cons _ _ (by decide)
        (not_unsafe_cons _ _ (by decide) (not_unsafe_cons _ _ (by decide)
          (not_unsafe_append _ _ hsafe_n (not_unsafe_append _ _ hsafe_p
            (not_unsafe_cons '?' _ (by decide) hsafe_q))))))
    have hb := path_delim_head path ('?' :: query) hpath
      (Or.inr ⟨'?', query, rfl, by decide⟩)
    have htd := takeWhile_append_delim (fun c => !netlocDelim c) netloc
      (path ++ '?' :: query) hall hb
    have hnh : '#' ∉ path ++ '?' :: query := by
      intro hm
      rcases List.mem_append.mp hm with h | h
      · exact hph h
      · rcases List.mem_cons.mp h with h | h
        · exact absurd h (by decide)
        · exact hqh h
    rw [hy]
    unfold urlsplitE
    dsimp only
    rw [removeUnsafe_safe _ hch,
      splitScheme_reparse scheme _ c0 srest hs hsc1 hsc2 hcolon hlow]
    dsimp only
    rw [if_pos (show List.take 2
          (('/' : Char) :: '/' :: (netloc ++ (path ++ '?' :: query))) =
        str "//" from rfl),
      show List.drop 2 (('/' : Char) :: '/' :: (netloc ++ (path ++ '?' :: query))) =
        netloc ++ (path ++ '?' :: query) from rfl]
    rw [htd.1, htd.2, if_pos hn_ok]
    dsimp only
    rw [splitFirst?_of_not_mem '#' _ hnh]
    dsimp only
    rw [splitFirst?_append '?' path query hpq]
  · -- query and fragment
    have hy : urlunsplit scheme netloc path query fragment =
        scheme ++ ':' :: '/' :: '/' ::
          (netloc ++ (path ++ '?' :: (query ++ '#' :: fragment))) := by
      unfold urlunsplit
      rw [hinsert]
      simp [hn_ne, hs, hq, hf, show str "//" = ['/', '/'] from rfl, List.append_assoc]
    have hch : ∀ c ∈ scheme ++ ':' :: '/' :: '/' ::
        (netloc ++ (path ++ '?' :: (query ++ '#' :: fragment))), c ∉ UNSAFE_CHARS :=
      not_unsafe_append _ _ hsafe_s (not_unsafe_cons _ _ (by decide)
        (not_unsafe_cons _ _ (by decide) (not_unsafe_cons _ _ (by decide)
          (not_unsafe_append _ _ hsafe_n (not_unsafe_append _ _ hsafe_p
            (not_unsafe_cons '?' _ (by decide)
              (not_unsafe_append _ _ hsafe_q
                (not_unsafe_cons '#' _ (by decide) hsafe_f))))))))
    have hb := path_delim_head path ('?' :: (query ++ '#' :: fragment)) hpath
      (Or.inr ⟨'?', query ++ '#' :: fragment, rfl, by decide⟩)
    have htd := takeWhile_append_delim (fun c => !netlocDelim c) netloc
      (path ++ '?' :: (query ++ '#' :: fragment)) hall hb
    have hnh : '#' ∉ path ++ '?' :: query := by
      intro hm
      rcases List.mem_append.mp hm with h | h
      · exact hph h
      · rcases List.mem_cons.mp h with h | h
        · exact absurd h (by decide)
        · exact hqh h
    have hassoc : path ++ '?' :: (query ++ '#' :: fragment) =
        (path ++ '?' :: query) ++ '#' :: fragment := by
      simp [List.append_assoc]
    rw [hy]
    unfold urlsplitE
    dsimp only
    rw [removeUnsafe_safe _ hch,
      splitScheme_reparse scheme _ c0 srest hs hsc1 hsc2 hcolon hlow]
    dsimp only
    rw [if_pos (show List.take 2
          (('/' : Char) :: '/' ::
            (netloc ++ (path ++ '?' :: (query ++ '#' :: fragment)))) =
        str "//" from rfl),
      show List.drop 2 (('/' : Char) :: '/' ::
          (netloc ++ (path ++ '?' :: (query ++ '#' :: fragment)))) =
        netloc ++ (path ++ '?' :: (query ++ '#' :: fragment)) from rfl]
    rw [htd.1, htd.2, if_pos hn_ok]
    dsimp only
    rw [hassoc, splitFirst?_append '#' _ fragment hnh]
    dsimp only
    rw [splitFirst?_append '?' path query hpq]

/-! #### Facts about components produced by `urlsplit` -/

theorem splitFirst?_eq_none (c : Char) (l : Str) (h : splitFirst? c l = none) :
    c ∉ l := by
  induction l with
  | nil => intro hm; cases hm
  | cons x xs ih =>
    rw [splitFirst?_cons] at h
    by_cases hx : x = c
    · rw [if_pos hx] at h; cases h
    · rw [if_neg hx] at h
      cases hs : splitFirst? c xs with
      | none =>
        intro hm
        rcases List.mem_cons.mp hm with h' | h'
        · exact hx h'.symm
        · exact ih hs h'
      | some p =>
        obtain ⟨a, b⟩ := p
        rw [hs] at h
        cases h

theorem mem_of_dropWhile (p : Char → Bool) (l : Str) (x : Char)
    (h : x ∈ l.dropWhile p) : x ∈ l := by
  rw [← List.takeWhile_append_dropWhile p l]
  exact List.mem_append_right _ h

theorem dropWhile_head_false (p : Char → Bool) (l : Str) (c : Char) (cs : Str)
    (h : l.dropWhile p = c :: cs) : p c = false := by
  induction l with
  | nil => simp at h
  | cons x xs ih =>
    rw [List.dropWhile_cons] at h
    cases hx : p x with
    | true => rw [hx, if_pos rfl] at h; exact ih h
    | false =>
      rw [hx, if_neg (by decide)] at h
      injection h with h1 _
      rw [← h1]; exact hx

/-- Facts about the fragment/query stripping stage of `urlsplit`: given the
resolved results of the two `partition`s, the path is `'#'`- and `'?'`-free,
the query is `'#'`-free, all parts are drawn from the input, and a nonempty
path starts with the input's first character, which is neither `'?'` nor
`'#'`. -/
theorem fq_facts (url3 url4 path query fragment : Str)
    (h4 : (url4 = url3 ∧ fragment = [] ∧ splitFirst? '#' url3 = none) ∨
          splitFirst? '#' url3 = some (url4, fragment))
    (h5 : (path = url4 ∧ query = [] ∧ splitFirst? '?' url4 = none) ∨
          splitFirst? '?' url4 = some (path, query)) :
    '#' ∉ path ∧ '?' ∉ path ∧ '#' ∉ query ∧
    (∀ c ∈ path, c ∈ url3) ∧ (∀ c ∈ query, c ∈ url3) ∧
    (∀ c ∈ fragment, c ∈ url3) ∧
    (path = [] ∨ ∃ d t, path = d :: t ∧ url3.head? = some d ∧ d ≠ '?' ∧ d ≠ '#') := by
  have hstage1 : '#' ∉ url4 ∧ (∀ c ∈ url4, c ∈ url3) ∧ (∀ c ∈ fragment, c ∈ url3) ∧
      (url4 = [] ∨ url4.head? = url3.head?) := by
    rcases h4 with ⟨h41, h42, h43⟩ | h4
    · rw [h41, h42]
      exact ⟨splitFirst?_eq_none '#' url3 h43, fun c hc => hc,
        fun c hc => absurd hc (List.not_mem_nil c), Or.inr rfl⟩
    · obtain ⟨he, hnm⟩ := splitFirst?_eq_some '#' url3 url4 fragment h4
      obtain ⟨hm1, hm2⟩ := splitFirst?_mem_parts '#' url3 url4 fragment h4
      refine ⟨hnm, hm1, hm2, ?_⟩
      cases url4 with
      | nil => exact Or.inl rfl
      | cons d t =>
        rw [he]
        exact Or.inr rfl
  obtain ⟨hp4, hm4, hmf, hh4⟩ := hstage1
  have hstage2 : '?' ∉ path ∧ (∀ c ∈ path, c ∈ url4) ∧ (∀ c ∈ query, c ∈ url4) ∧
      (path = [] ∨ path.head? = url4.head?) := by
    rcases h5 with ⟨h51, h52, h53⟩ | h5
    · rw [h51, h52]
      exact ⟨splitFirst?_eq_none '?' url4 h53, fun c hc => hc,
        fun c hc => absurd hc (List.not_mem_nil c), Or.inr rfl⟩
    · obtain ⟨he, hnm⟩ := splitFirst?_eq_some '?' url4 path query h5
      obtain ⟨hm1, hm2⟩ := splitFirst?_mem_parts '?' url4 path query h5
      refine ⟨hnm, hm1, hm2, ?_⟩
      cases path with
      | nil => exact Or.inl rfl
      | cons d t =>
        rw [he]
        exact Or.inr rfl
  obtain ⟨hq5, hm5, hmq, hh5⟩ := hstage2
  refine ⟨fun hm => hp4 (hm5 '#' hm), hq5, fun hm => hp4 (hmq '#' hm),
    fun c hc => hm4 c (hm5 c hc), fun c hc => hm4 c (hmq c hc), hmf, ?_⟩
  cases hpath : path with
  | nil => exact Or.inl rfl
  | cons d t =>
    rcases hh5 with hh5 | hh5
    · rw [hpath] at hh5; cases hh5
    · rw [hpath] at hh5
      have hd4 : url4.head? = some d := hh5.symm
      cases hurl4 : url4 with
      | nil => rw [hurl4] at hd4; cases hd4
      | cons d4 t4 =>
        rw [hurl4] at hd4
        have hdd : d4 = d := by simpa using hd4
        rcases hh4 with hh4 | hh4
        · rw [hurl4] at hh4; cases hh4
        · refine Or.inr ⟨d, t, rfl, ?_, ?_, ?_⟩
          · rw [← hh4, hurl4, hdd]
            rfl
          · intro hdq
            apply hq5
            rw [hpath, hdq]
            exact List.mem_cons_self '?' t
          · intro hdh
            apply hp4
            rw [hurl4, hdd, hdh]
            exact List.mem_cons_self '#' t4

theorem mem_of_takeWhile (p : Char → Bool) (l : Str) (x : Char)
    (h : x ∈ l.takeWhile p) : x ∈ l := by
  rw [← List.takeWhile_append_dropWhile p l]
  exact List.mem_append_left _ h

/-- Assembling the component facts of one `urlsplit` result. -/
theorem splitresult_facts (s netloc url3 url4 path query fragment : Str)
    (r : SplitResult) (hr : SplitResult.mk s netloc path query fragment = r)
    (h4 : (url4 = url3 ∧ fragment = [] ∧ splitFirst? '#' url3 = none) ∨
          splitFirst? '#' url3 = some (url4, fragment))
    (h5 : (path = url4 ∧ query = [] ∧ splitFirst? '?' url4 = none) ∨
          splitFirst? '?' url4 = some (path, query))
    (hscheme : s = [] ∨ ∃ c0 srest, s = c0 :: srest ∧ isAsciiAlpha c0 = true ∧
      srest.all schemeChar = true ∧ lowerStr s = s)
    (hssafe : ∀ c ∈ s, c ∉ UNSAFE_CHARS)
    (hnl : netloc ≠ [] → (∀ c ∈ netloc, netlocDelim c = false) ∧
      netlocOk netloc = true ∧
      (url3 = [] ∨ ∃ d t, url3 = d :: t ∧ netlocDelim d = true))
    (hnsafe : ∀ c ∈ netloc, c ∉ UNSAFE_CHARS)
    (h3safe : ∀ c ∈ url3, c ∉ UNSAFE_CHARS) :
    (r.scheme = [] ∨ ∃ c0 srest, r.scheme = c0 :: srest ∧ isAsciiAlpha c0 = true ∧
      srest.all schemeChar = true ∧ lowerStr r.scheme = r.scheme) ∧
    (r.netloc ≠ [] →
      (∀ c ∈ r.netloc, netlocDelim c = false) ∧ netlocOk r.netloc = true ∧
      (r.path = [] ∨ r.path.head? = some '/')) ∧
    '#' ∉ r.path ∧ '?' ∉ r.path ∧ '#' ∉ r.query ∧
    (∀ c ∈ r.scheme, c ∉ UNSAFE_CHARS) ∧ (∀ c ∈ r.netloc, c ∉ UNSAFE_CHARS) ∧
    (∀ c ∈ r.path, c ∉ UNSAFE_CHARS) ∧ (∀ c ∈ r.query, c ∉ UNSAFE_CHARS) ∧
    (∀ c ∈ r.fragment, c ∉ UNSAFE_CHARS) := by
  subst hr
  dsimp only
  obtain ⟨hph, hpq, hqh, hmp, hmq, hmf, hhead⟩ :=
    fq_facts url3 url4 path query fragment h4 h5
  refine ⟨hscheme, ?_, hph, hpq, hqh, hssafe, hnsafe,
    fun c hc => h3safe c (hmp c hc), fun c hc => h3safe c (hmq c hc),
    fun c hc => h3safe c (hmf c hc)⟩
  intro hne
  obtain ⟨hd, hok, h3shape⟩ := hnl hne
  refine ⟨hd, hok, ?_⟩
  rcases hhead with hp | ⟨d, t, hpdt, hhd, hnq, hnh⟩
  · exact Or.inl hp
  · rcases h3shape with h3nil | ⟨d0, t0, h3dt, hdelim⟩
    · rw [h3nil] at hhd; cases hhd
    · rw [h3dt] at hhd
      have hd0 : d0 = d := by simpa using hhd
      rw [hd0] at hdelim
      unfold netlocDelim at hdelim
      simp only [Bool.or_eq_true, decide_eq_true_eq] at hdelim
      rcases hdelim with (hd' | hd') | hd'
      · rw [hpdt, hd']
        exact Or.inr rfl
      · exact absurd hd' hnq
      · exact absurd hd' hnh

/-- Structural facts about every successful `urlsplit` result: scheme shape
and lower-case fixedness, netloc validity, delimiter-freeness of path and
query, and absence of the removed unsafe characters in all components. -/
theorem urlsplitE_facts (u : Str) (r : SplitResult) (h : urlsplitE u = .ok r) :
    (r.scheme = [] ∨ ∃ c0 srest, r.scheme = c0 :: srest ∧ isAsciiAlpha c0 = true ∧
      srest.all schemeChar = true ∧ lowerStr r.scheme = r.scheme) ∧
    (r.netloc ≠ [] →
      (∀ c ∈ r.netloc, netlocDelim c = false) ∧ netlocOk r.netloc = true ∧
      (r.path = [] ∨ r.path.head? = some '/')) ∧
    '#' ∉ r.path ∧ '?' ∉ r.path ∧ '#' ∉ r.query ∧
    (∀ c ∈ r.scheme, c ∉ UNSAFE_CHARS) ∧ (∀ c ∈ r.netloc, c ∉ UNSAFE_CHARS) ∧
    (∀ c ∈ r.path, c ∉ UNSAFE_CHARS) ∧ (∀ c ∈ r.query, c ∉ UNSAFE_CHARS) ∧
    (∀ c ∈ r.fragment, c ∉ UNSAFE_CHARS) := by
  have hu1 : ∀ c ∈ removeUnsafe u, c ∉ UNSAFE_CHARS := by
    intro c hc hun
    have hp := List.of_mem_filter hc
    simp [hun] at hp
  unfold urlsplitE at h
  dsimp only at h
  rcases hss : splitScheme (removeUnsafe u) with ⟨s, u2⟩
  rw [hss] at h
  dsimp only at h
  have hspec := splitScheme_spec _ s u2 hss
  have hscheme_shape : s = [] ∨ ∃ c0 srest, s = c0 :: srest ∧
      isAsciiAlpha c0 = true ∧ srest.all schemeChar = true ∧ lowerStr s = s := by
    rcases hspec with ⟨hs1, _⟩ | ⟨c0, brest, hsl, ha, hall, _, _⟩
    · exact Or.inl hs1
    · refine Or.inr ⟨asciiLower c0, lowerStr brest, by rw [hsl]; rfl,
        asciiLower_alpha c0 ha, ?_, ?_⟩
      · rw [List.all_eq_true]
        intro x hx
        unfold lowerStr at hx
        obtain ⟨y, hy, hxy⟩ := List.mem_map.mp hx
        rw [← hxy]
        exact asciiLower_schemeChar y (List.all_eq_true.mp hall y hy)
      · rw [hsl]
        exact lowerStr_idem _
  have hsafe_s : ∀ c ∈ s, c ∉ UNSAFE_CHARS := by
    rcases hspec with ⟨hs1, _⟩ | ⟨c0, brest, hsl, _, _, hu, _⟩
    · rw [hs1]
      exact fun c hc => absurd hc (List.not_mem_nil c)
    · intro c hc hcu
      rw [hsl] at hc
      unfold lowerStr at hc
      obtain ⟨y, hy, hxy⟩ := List.mem_map.mp hc
      have hyu : y ∈ removeUnsafe u := by
        rw [hu]
        exact List.mem_append_left _ hy
      exact hu1 y hyu (asciiLower_unsafeChars y (hxy ▸ hcu))
  have hsafe_u2 : ∀ c ∈ u2, c ∉ UNSAFE_CHARS := by
    rcases hspec with ⟨_, hs2⟩ | ⟨c0, brest, _, _, _, hu, _⟩
    · rw [hs2]
      exact hu1
    · intro c hc
      apply hu1
      rw [hu]
      exact List.mem_append_right _ (List.mem_cons_of_mem ':' hc)
  by_cases h2 : u2.take 2 = str "//"
  · rw [if_pos h2] at h
    by_cases hok :
        netlocOk ((u2.drop 2).takeWhile (fun c => !netlocDelim c)) = true
    · rw [if_pos hok] at h
      dsimp only at h
      have hdelim : ∀ c ∈ (u2.drop 2).takeWhile (fun c => !netlocDelim c),
          netlocDelim c = false := by
        intro c hc
        have := @List.mem_takeWhile_imp Char (fun c => !netlocDelim c)
          (u2.drop 2) c hc
        simpa using this
      have hnsafe : ∀ c ∈ (u2.drop 2).takeWhile (fun c => !netlocDelim c),
          c ∉ UNSAFE_CHARS :=
        fun c hc => hsafe_u2 c (List.mem_of_mem_drop (mem_of_takeWhile _ _ c hc))
      have h3safe : ∀ c ∈ (u2.drop 2).dropWhile (fun c => !netlocDelim c),
          c ∉ UNSAFE_CHARS :=
        fun c hc => hsafe_u2 c (List.mem_of_mem_drop (mem_of_dropWhile _ _ c hc))
      have h3shape : (u2.drop 2).dropWhile (fun c => !netlocDelim c) = [] ∨
          ∃ d t, (u2.drop 2).dropWhile (fun c => !netlocDelim c) = d :: t ∧
            netlocDelim d = true := by
        cases h3 : (u2.drop 2).dropWhile (fun c => !netlocDelim c) with
        | nil => exact Or.inl rfl
        | cons d t =>
          have := dropWhile_head_false (fun c => !netlocDelim c) (u2.drop 2) d t h3
          exact Or.inr ⟨d, t, rfl, by simpa using this⟩
      cases hfs : splitFirst? '#' ((u2.drop 2).dropWhile (fun c => !netlocDelim c)) with
      | none =>
        rw [hfs] at h
        dsimp only at h
        cases hqs : splitFirst? '?'
            ((u2.drop 2).dropWhile (fun c => !netlocDelim c)) with
        | none =>
          rw [hqs] at h
          dsimp only at h
          injection h with h'
          exact splitresult_facts _ _ _ _ _ _ _ r h'
            (Or.inl ⟨rfl, rfl, hfs⟩) (Or.inl ⟨rfl, rfl, hqs⟩)
            hscheme_shape hsafe_s (fun _ => ⟨hdelim, hok, h3shape⟩) hnsafe h3safe
        | some p =>
          obtain ⟨x, y⟩ := p
          rw [hqs] at h
          dsimp only at h
          injection h with h'
          exact splitresult_facts _ _ _ _ _ _ _ r h'
            (Or.inl ⟨rfl, rfl, hfs⟩) (Or.inr hqs)
            hscheme_shape hsafe_s (fun _ => ⟨hdelim, hok, h3shape⟩) hnsafe h3safe
      | some p =>
        obtain ⟨a, b⟩ := p
        rw [hfs] at h
        dsimp only at h
        cases hqs : splitFirst? '?' a with
        | none =>
          rw [hqs] at h
          dsimp only at h
          injection h with h'
          exact splitresult_facts _ _ _ _ _ _ _ r h'
            (Or.inr hfs) (Or.inl ⟨rfl, rfl, hqs⟩)
            hscheme_shape hsafe_s (fun _ => ⟨hdelim, hok, h3shape⟩) hnsafe h3safe
        | some q =>
          obtain ⟨x, y⟩ := q
          rw [hqs] at h
          dsimp only at h
          injection h with h'
          exact splitresult_facts _ _ _ _ _ _ _ r h'
            (Or.inr hfs) (Or.inr hqs)
            hscheme_shape hsafe_s (fun _ => ⟨hdelim, hok, h3shape⟩) hnsafe h3safe
    · rw [if_neg hok] at h
      dsimp only at h
      cases h
  · rw [if_neg h2] at h
    dsimp only at h
    cases hfs : splitFirst? '#' u2 with
    | none =>
      rw [hfs] at h
      dsimp only at h
      cases hqs : splitFirst? '?' u2 with
      | none =>
        rw [hqs] at h
        dsimp only at h
        injection h with h'
        exact splitresult_facts _ _ _ _ _ _ _ r h'
          (Or.inl ⟨rfl, rfl, hfs⟩) (Or.inl ⟨rfl, rfl, hqs⟩)
          hscheme_shape hsafe_s (fun hne => absurd rfl hne)
          (fun c hc => absurd hc (List.not_mem_nil c)) hsafe_u2
      | some p =>
        obtain ⟨x, y⟩ := p
        rw [hqs] at h
        dsimp only at h
        injection h with h'
        exact splitresult_facts _ _ _ _ _ _ _ r h'
          (Or.inl ⟨rfl, rfl, hfs⟩) (Or.inr hqs)
          hscheme_shape hsafe_s (fun hne => absurd rfl hne)
          (fun c hc => absurd hc (List.not_mem_nil c)) hsafe_u2
    | some p =>
      obtain ⟨a, b⟩ := p
      rw [hfs] at h
      dsimp only at h
      cases hqs : splitFirst? '?' a with
      | none =>
        rw [hqs] at h
        dsimp only at h
        injection h with h'
        exact splitresult_facts _ _ _ _ _ _ _ r h'
          (Or.inr hfs) (Or.inl ⟨rfl, rfl, hqs⟩)
          hscheme_shape hsafe_s (fun hne => absurd rfl hne)
          (fun c hc => absurd hc (List.not_mem_nil c)) hsafe_u2
      | some q =>
        obtain ⟨x, y⟩ := q
        rw [hqs] at h
        dsimp only at h
        injection h with h'
        exact splitresult_facts _ _ _ _ _ _ _ r h'
          (Or.inr hfs) (Or.inr hqs)
          hscheme_shape hsafe_s (fun hne => absurd rfl hne)
          (fun c hc => absurd hc (List.not_mem_nil c)) hsafe_u2

/-! #### `_splitparams` structure -/

theorem splitparams_eq (p : Str) :
    splitparams p =
      if '/' ∈ p then
        match splitFirst? ';'
            ((p.reverse.takeWhile (fun c => decide (c ≠ '/'))).reverse) with
        | none => (p, [])
        | some (b1, b2) =>
          (p.take (p.length -
              ((p.reverse.takeWhile (fun c => decide (c ≠ '/'))).reverse).length)
            ++ b1, b2)
      else
        match splitFirst? ';' p with
        | none => (p, [])
        | some (a, b) => (a, b) := rfl

theorem take_sub_length (u v : List Char) :
    (u ++ v).take ((u ++ v).length - v.length) = u := by
  have hl : (u ++ v).length - v.length = u.length := by
    rw [List.length_append]; omega
  rw [hl, List.take_left]

theorem splitparams_build (pre0 b1 b2 : Str) (h1 : '/' ∉ b1) (h2 : ';' ∉ b1)
    (h3 : '/' ∉ b2) :
    splitparams ((pre0 ++ ['/']) ++ (b1 ++ ';' :: b2)) =
      ((pre0 ++ ['/']) ++ b1, b2) := by
  have hmem : '/' ∈ (pre0 ++ ['/']) ++ (b1 ++ ';' :: b2) :=
    List.mem_append_left _ (List.mem_append_right _ (List.mem_singleton.mpr rfl))
  rw [splitparams_eq, if_pos hmem]
  have hrev : ((pre0 ++ ['/']) ++ (b1 ++ ';' :: b2)).reverse =
      (b1 ++ ';' :: b2).reverse ++ ('/' :: pre0.reverse) := by
    simp
  have hall : ∀ x ∈ (b1 ++ ';' :: b2).reverse,
      (fun c => decide (c ≠ '/')) x = true := by
    intro x hx
    rw [List.mem_reverse] at hx
    simp only [decide_eq_true_eq]
    rcases List.mem_append.mp hx with h | h
    · exact fun hc => h1 (hc ▸ h)
    · rcases List.mem_cons.mp h with h | h
      · rw [h]; decide
      · exact fun hc => h3 (hc ▸ h)
  have htd := takeWhile_append_delim (fun c => decide (c ≠ '/'))
      ((b1 ++ ';' :: b2).reverse) ('/' :: pre0.reverse) hall
      (Or.inr ⟨'/', pre0.reverse, rfl, by decide⟩)
  rw [hrev, htd.1, List.reverse_reverse, splitFirst?_append ';' b1 b2 h2]
  rw [take_sub_length (pre0 ++ ['/']) (b1 ++ ';' :: b2)]

theorem splitparams_build_none (pre0 b1 : Str) (h1 : '/' ∉ b1) (h2 : ';' ∉ b1) :
    splitparams ((pre0 ++ ['/']) ++ b1) = ((pre0 ++ ['/']) ++ b1, []) := by
  have hmem : '/' ∈ (pre0 ++ ['/']) ++ b1 :=
    List.mem_append_left _ (List.mem_append_right _ (List.mem_singleton.mpr rfl))
  rw [splitparams_eq, if_pos hmem]
  have hrev : ((pre0 ++ ['/']) ++ b1).reverse =
      b1.reverse ++ ('/' :: pre0.reverse) := by
    simp
  have hall : ∀ x ∈ b1.reverse, (fun c => decide (c ≠ '/')) x = true := by
    intro x hx
    rw [List.mem_reverse] at hx
    simp only [decide_eq_true_eq]
    exact fun hc => h1 (hc ▸ hx)
  have htd := takeWhile_append_delim (fun c => decide (c ≠ '/'))
      b1.reverse ('/' :: pre0.reverse) hall
      (Or.inr ⟨'/', pre0.reverse, rfl, by decide⟩)
  rw [hrev, htd.1, List.reverse_reverse, splitFirst?_of_not_mem ';' b1 h2]

theorem splitparams_noslash (b1 b2 : Str) (h1 : '/' ∉ b1) (h2 : ';' ∉ b1)
    (h3 : '/' ∉ b2) : splitparams (b1 ++ ';' :: b2) = (b1, b2) := by
  have hns : '/' ∉ b1 ++ ';' :: b2 := by
    intro hm
    rcases List.mem_append.mp hm with h | h
    · exact h1 h
    · rcases List.mem_cons.mp h with h | h
      · exact absurd h (by decide)
      · exact h3 h
  rw [splitparams_eq, if_neg hns, splitFirst?_append ';' b1 b2 h2]

theorem splitparams_noslash_none (b1 : Str) (h1 : '/' ∉ b1) (h2 : ';' ∉ b1) :
    splitparams b1 = (b1, []) := by
  rw [splitparams_eq, if_neg h1, splitFirst?_of_not_mem ';' b1 h2]

/-- Structure of `_splitparams`'s result: either nothing was split off, or the
input decomposes around the first `';'` after the last `'/'` (or the first
`';'` overall when there is no `'/'`). -/
theorem splitparams_destruct (pp a b : Str) (h : splitparams pp = (a, b)) :
    (a = pp ∧ b = []) ∨
    (∃ pre0 b1, pp = (pre0 ++ ['/']) ++ (b1 ++ ';' :: b) ∧
      a = (pre0 ++ ['/']) ++ b1 ∧ '/' ∉ b1 ∧ ';' ∉ b1 ∧ '/' ∉ b) ∨
    (pp = a ++ ';' :: b ∧ '/' ∉ a ∧ ';' ∉ a ∧ '/' ∉ b ∧ '/' ∉ pp) := by
  rw [splitparams_eq] at h
  by_cases hs : '/' ∈ pp
  · rw [if_pos hs] at h
    cases hsp : splitFirst? ';'
        ((pp.reverse.takeWhile (fun c => decide (c ≠ '/'))).reverse) with
    | none =>
      rw [hsp] at h
      simp only [Prod.mk.injEq] at h
      exact Or.inl ⟨h.1.symm, h.2.symm⟩
    | some p =>
      obtain ⟨x, y⟩ := p
      rw [hsp] at h
      simp only [Prod.mk.injEq] at h
      obtain ⟨ha, hb⟩ := h
      obtain ⟨hASx, hxs⟩ := splitFirst?_eq_some ';' _ x y hsp
      have hAS_slash : ∀ z ∈ (pp.reverse.takeWhile (fun c => decide (c ≠ '/'))).reverse,
          z ≠ '/' := by
        intro z hz
        rw [List.mem_reverse] at hz
        have hz' := @List.mem_takeWhile_imp Char (fun c => decide (c ≠ '/'))
          pp.reverse z hz
        exact of_decide_eq_true hz'
      have hdecomp : pp =
          (pp.reverse.dropWhile (fun c => decide (c ≠ '/'))).reverse ++
            (pp.reverse.takeWhile (fun c => decide (c ≠ '/'))).reverse := by
        rw [← List.reverse_append, List.takeWhile_append_dropWhile,
          List.reverse_reverse]
      have hne : pp.reverse.dropWhile (fun c => decide (c ≠ '/')) ≠ [] := by
        intro hnil
        have h47 := List.dropWhile_eq_nil_iff.mp hnil '/' (List.mem_reverse.mpr hs)
        exact absurd h47 (by decide)
      obtain ⟨d, ds, hdds⟩ := List.exists_cons_of_ne_nil hne
      have hd : d = '/' :=
        not_not.mp (of_decide_eq_false (dropWhile_head_false _ pp.reverse d ds hdds))
      have hU : (pp.reverse.dropWhile (fun c => decide (c ≠ '/'))).reverse =
          ds.reverse ++ ['/'] := by
        rw [hdds, List.reverse_cons, hd]
      rw [hU] at hdecomp
      have hlen : pp.length = (ds.reverse ++ ['/']).length +
          ((pp.reverse.takeWhile (fun c => decide (c ≠ '/'))).reverse).length := by
        conv_lhs => rw [hdecomp]
        rw [List.length_append]
      have htake : pp.take (pp.length -
          ((pp.reverse.takeWhile (fun c => decide (c ≠ '/'))).reverse).length) =
          ds.reverse ++ ['/'] := by
        have h2 : pp.length -
            ((pp.reverse.takeWhile (fun c => decide (c ≠ '/'))).reverse).length =
            (ds.reverse ++ ['/']).length := by omega
        rw [h2]
        conv_lhs => rw [hdecomp]
        rw [List.take_left]
      rw [htake] at ha
      refine Or.inr (Or.inl ⟨ds.reverse, x, ?_, ?_, ?_, hxs, ?_⟩)
      · rw [hdecomp, hASx, hb]
      · rw [← ha]
      · intro hm
        exact hAS_slash '/' (hASx ▸ List.mem_append_left _ hm) rfl
      · intro hm
        exact hAS_slash '/'
          (hASx ▸ List.mem_append_right _ (List.mem_cons_of_mem _ (hb ▸ hm))) rfl
  · rw [if_neg hs] at h
    cases hsp : splitFirst? ';' pp with
    | none =>
      rw [hsp] at h
      simp only [Prod.mk.injEq] at h
      exact Or.inl ⟨h.1.symm, h.2.symm⟩
    | some p =>
      obtain ⟨x, y⟩ := p
      rw [hsp] at h
      simp only [Prod.mk.injEq] at h
      obtain ⟨ha, hb⟩ := h
      obtain ⟨hpx, hxs⟩ := splitFirst?_eq_some ';' pp x y hsp
      obtain ⟨hma, hmb⟩ := splitFirst?_mem_parts ';' pp x y hsp
      refine Or.inr (Or.inr ⟨?_, ?_, ?_, ?_, hs⟩)
      · rw [← ha, ← hb]; exact hpx
      · intro hm; exact hs (hma '/' (ha ▸ hm))
      · intro hm; exact hxs (ha ▸ hm)
      · intro hm; exact hs (hmb '/' (hb ▸ hm))

/-- When `_splitparams` split something off, re-splitting the recombined path
gives the same two parts back. -/
theorem splitparams_recombine (pp a b : Str) (h : splitparams pp = (a, b))
    (hb : b ≠ []) : splitparams (a ++ ';' :: b) = (a, b) := by
  rcases splitparams_destruct pp a b h with ⟨_, hnil⟩ | ⟨pre0, b1, _, ha, h1, h2, h3⟩ |
      ⟨_, h1, h2, h3, _⟩
  · exact absurd hnil hb
  · rw [ha, List.append_assoc]
    exact splitparams_build pre0 b1 b h1 h2 h3
  · exact splitparams_noslash a b h1 h2 h3

/-- When `_splitparams` split nothing off, its first component is a fixed
point of `_splitparams`. -/
theorem splitparams_stable (pp a : Str) (h : splitparams pp = (a, [])) :
    splitparams a = (a, []) := by
  rcases splitparams_destruct pp a [] h with ⟨ha, _⟩ | ⟨pre0, b1, _, ha, h1, h2, _⟩ |
      ⟨_, h1, h2, _, _⟩
  · rw [ha]; rw [ha] at h; exact h
  · rw [ha]
    exact splitparams_build_none pre0 b1 h1 h2
  · exact splitparams_noslash_none a h1 h2

/-- `_splitparams` preserves emptiness-or-leading-slash of the path. -/
theorem splitparams_fst_head (pp a b : Str) (h : splitparams pp = (a, b))
    (hp : pp = [] ∨ pp.head? = some '/') : a = [] ∨ a.head? = some '/' := by
  rcases splitparams_destruct pp a b h with ⟨ha, _⟩ | ⟨pre0, b1, hpp, ha, _, _, _⟩ |
      ⟨hpp, _, _, _, hns⟩
  · rw [ha]; exact hp
  · cases pre0 with
    | nil =>
      rw [ha]
      exact Or.inr rfl
    | cons z zs =>
      rcases hp with hp | hp
      · rw [hp] at hpp; simp at hpp
      · have hz : z = '/' := by
          rw [hpp] at hp
          simp only [List.cons_append, List.head?_cons, Option.some.injEq] at hp
          exact hp
        rw [ha, hz]
        exact Or.inr rfl
  · rcases hp with hp | hp
    · rw [hp] at hpp; simp at hpp
    · exfalso
      apply hns
      cases pp with
      | nil => cases hp
      | cons c t =>
        have : c = '/' := by
          simp only [List.head?_cons, Option.some.injEq] at hp
          exact hp
        rw [this] at hp ⊢
        exact List.mem_cons_self '/' t

/-- Both `_splitparams` components are drawn from the input path. -/
theorem splitparams_mem (pp a b : Str) (h : splitparams pp = (a, b)) :
    (∀ x ∈ a, x ∈ pp) ∧ ∀ x ∈ b, x ∈ pp := by
  rcases splitparams_destruct pp a b h with ⟨ha, hb⟩ | ⟨pre0, b1, hpp, ha, _, _, _⟩ |
      ⟨hpp, _, _, _, _⟩
  · constructor
    · intro x hx; rw [← ha]; exact hx
    · intro x hx; rw [hb] at hx; cases hx
  · constructor
    · intro x hx
      rw [ha] at hx
      rw [hpp]
      rcases List.mem_append.mp hx with h' | h'
      · exact List.mem_append_left _ h'
      · exact List.mem_append_right _ (List.mem_append_left _ h')
    · intro x hx
      rw [hpp]
      exact List.mem_append_right _
        (List.mem_append_right _ (List.mem_cons_of_mem _ hx))
  · constructor
    · intro x hx
      rw [hpp]
      exact List.mem_append_left _ hx
    · intro x hx
      rw [hpp]
      exact List.mem_append_right _ (List.mem_cons_of_mem _ hx)

/-- A nonempty second `_splitparams` component forces the first one to start
with `'/'` whenever the input did (or was empty). -/
theorem splitparams_fst_head_ne (pp a b : Str) (h : splitparams pp = (a, b))
    (hb : b ≠ []) (hp : pp = [] ∨ pp.head? = some '/') : a.head? = some '/' := by
  rcases splitparams_destruct pp a b h with ⟨_, hnil⟩ | ⟨pre0, b1, hpp, ha, _, _, _⟩ |
      ⟨hpp, _, _, _, hns⟩
  · exact absurd hnil hb
  · cases pre0 with
    | nil => rw [ha]; rfl
    | cons z zs =>
      rcases hp with hp | hp
      · rw [hp] at hpp; simp at hpp
      · have hz : z = '/' := by
          rw [hpp] at hp
          simp only [List.cons_append, List.head?_cons, Option.some.injEq] at hp
          exact hp
        rw [ha, hz]
        rfl
  · exfalso
    rcases hp with hp | hp
    · rw [hp] at hpp; simp at hpp
    · apply hns
      cases pp with
      | nil => cases hp
      | cons c t =>
        have hc : c = '/' := by simpa using hp
        rw [hc]
        exact List.mem_cons_self '/' t

/-! #### `urlparse` of a rebuilt URL, and facts about `urlparse` results -/

/-- Re-parsing a URL reassembled by `urlunparse` from the components of a
successful netloc-bearing parse recovers all six components. -/
theorem urlparseE_unparse (scheme netloc path params query fragment : Str)
    (c0 : Char) (srest : Str) (hs : scheme = c0 :: srest)
    (hsc1 : isAsciiAlpha c0 = true) (hsc2 : srest.all schemeChar = true)
    (hlow : lowerStr scheme = scheme)
    (hn_ne : netloc ≠ [])
    (hn_delim : ∀ c ∈ netloc, netlocDelim c = false)
    (hn_ok : netlocOk netloc = true)
    (hpath : path = [] ∨ path.head? = some '/')
    (hpq : '?' ∉ path) (hph : '#' ∉ path)
    (hprq : '?' ∉ params) (hprh : '#' ∉ params)
    (hqh : '#' ∉ query)
    (hsafe_s : ∀ c ∈ scheme, c ∉ UNSAFE_CHARS)
    (hsafe_n : ∀ c ∈ netloc, c ∉ UNSAFE_CHARS)
    (hsafe_p : ∀ c ∈ path, c ∉ UNSAFE_CHARS)
    (hsafe_pr : ∀ c ∈ params, c ∉ UNSAFE_CHARS)
    (hsafe_q : ∀ c ∈ query, c ∉ UNSAFE_CHARS)
    (hsafe_f : ∀ c ∈ fragment, c ∉ UNSAFE_CHARS)
    (huses : params ≠ [] → scheme ∈ USES_PARAMS ∧ path.head? = some '/' ∧
      splitparams (path ++ ';' :: params) = (path, params))
    (hstab : params = [] → scheme ∈ USES_PARAMS → ';' ∈ path →
      splitparams path = (path, [])) :
    urlparseE (urlunparse scheme netloc path params query fragment) =
      .ok ⟨scheme, netloc, path, params, query, fragment⟩ := by
  unfold urlparseE urlunparse
  by_cases hpar : params = []
  · subst hpar
    rw [show (if ([] : Str) ≠ [] then path ++ ';' :: ([] : Str) else path) = path
      from rfl]
    rw [urlsplitE_unsplit scheme netloc path query fragment c0 srest hs hsc1 hsc2
      hlow hn_ne hn_delim hn_ok hpath hpq hph hqh hsafe_s hsafe_n hsafe_p hsafe_q
      hsafe_f]
    dsimp only
    by_cases hu : scheme ∈ USES_PARAMS
    · by_cases hsemi : ';' ∈ path
      · rw [if_pos (by simp [hu, hsemi])]
        rw [hstab rfl hu hsemi]
      · rw [if_neg (by simp [hsemi])]
    · rw [if_neg (by simp [hu])]
  · obtain ⟨hu, hhead, hsp⟩ := huses hpar
    rw [if_pos (by simp [hpar])]
    have hpath' : path ++ ';' :: params = [] ∨
        (path ++ ';' :: params).head? = some '/' := by
      cases path with
      | nil => simp at hhead
      | cons p0 pt =>
        have hp0 : p0 = '/' := by simpa using hhead
        rw [hp0]
        exact Or.inr rfl
    have hpq' : '?' ∉ path ++ ';' :: params := by
      intro hm
      rcases List.mem_append.mp hm with hm | hm
      · exact hpq hm
      · rcases List.mem_cons.mp hm with hm | hm
        · exact absurd hm (by decide)
        · exact hprq hm
    have hph' : '#' ∉ path ++ ';' :: params := by
      intro hm
      rcases List.mem_append.mp hm with hm | hm
      · exact hph hm
      · rcases List.mem_cons.mp hm with hm | hm
        · exact absurd hm (by decide)
        · exact hprh hm
    have hsafe_p' : ∀ c ∈ path ++ ';' :: params, c ∉ UNSAFE_CHARS :=
      not_unsafe_append _ _ hsafe_p (not_unsafe_cons ';' _ (by decide) hsafe_pr)
    rw [urlsplitE_unsplit scheme netloc (path ++ ';' :: params) query fragment c0
      srest hs hsc1 hsc2 hlow hn_ne hn_delim hn_ok hpath' hpq' hph' hqh hsafe_s
      hsafe_n hsafe_p' hsafe_q hsafe_f]
    dsimp only
    rw [if_pos (by simp [hu]), hsp]

/-- Structural facts about a successful `urlparse` with scheme and netloc:
exactly the preconditions `urlparseE_unparse` needs. -/
theorem urlparseE_facts (u : Str) (p : ParseResult) (h : urlparseE u = .ok p)
    (hne : p.netloc ≠ []) (hsne : p.scheme ≠ []) :
    (∃ c0 srest, p.scheme = c0 :: srest ∧ isAsciiAlpha c0 = true ∧
      srest.all schemeChar = true ∧ lowerStr p.scheme = p.scheme) ∧
    (∀ c ∈ p.netloc, netlocDelim c = false) ∧ netlocOk p.netloc = true ∧
    (p.path = [] ∨ p.path.head? = some '/') ∧
    '?' ∉ p.path ∧ '#' ∉ p.path ∧ '?' ∉ p.params ∧ '#' ∉ p.params ∧
    '#' ∉ p.query ∧
    (∀ c ∈ p.scheme, c ∉ UNSAFE_CHARS) ∧ (∀ c ∈ p.netloc, c ∉ UNSAFE_CHARS) ∧
    (∀ c ∈ p.path, c ∉ UNSAFE_CHARS) ∧ (∀ c ∈ p.params, c ∉ UNSAFE_CHARS) ∧
    (∀ c ∈ p.query, c ∉ UNSAFE_CHARS) ∧ (∀ c ∈ p.fragment, c ∉ UNSAFE_CHARS) ∧
    (p.params ≠ [] → p.scheme ∈ USES_PARAMS ∧ p.path.head? = some '/' ∧
      splitparams (p.path ++ ';' :: p.params) = (p.path, p.params)) ∧
    (p.params = [] → p.scheme ∈ USES_PARAMS → ';' ∈ p.path →
      splitparams p.path = (p.path, [])) := by
  unfold urlparseE at h
  cases hsp : urlsplitE u with
  | error e => rw [hsp] at h; cases h
  | ok r =>
    rw [hsp] at h
    dsimp only at h
    obtain ⟨hscheme, hnlfacts, hrph, hrpq, hrqh, hrs_safe, hrn_safe, hrp_safe,
      hrq_safe, hrf_safe⟩ := urlsplitE_facts u r hsp
    by_cases hcond : r.scheme ∈ USES_PARAMS ∧ ';' ∈ r.path
    · rw [if_pos (by simp [hcond.1, hcond.2])] at h
      rcases hps : splitparams r.path with ⟨pa, pb⟩
      rw [hps] at h
      dsimp only at h
      injection h with h'
      subst h'
      dsimp only at hne hsne ⊢
      obtain ⟨hd, hok, hhead⟩ := hnlfacts hne
      obtain ⟨hmema, hmemb⟩ := splitparams_mem r.path pa pb hps
      have hshape : ∃ c0 srest, r.scheme = c0 :: srest ∧ isAsciiAlpha c0 = true ∧
          srest.all schemeChar = true ∧ lowerStr r.scheme = r.scheme := by
        rcases hscheme with hnil | hshape
        · exact absurd hnil hsne
        · exact hshape
      refine ⟨hshape, hd, hok, splitparams_fst_head r.path pa pb hps hhead,
        fun hm => hrpq (hmema '?' hm),
        fun hm => hrph (hmema '#' hm), fun hm => hrpq (hmemb '?' hm),
        fun hm => hrph (hmemb '#' hm), hrqh, hrs_safe, hrn_safe,
        fun c hc => hrp_safe c (hmema c hc), fun c hc => hrp_safe c (hmemb c hc),
        hrq_safe, hrf_safe, ?_, ?_⟩
      · intro hbne
        exact ⟨hcond.1, splitparams_fst_head_ne r.path pa pb hps hbne hhead,
          splitparams_recombine r.path pa pb hps hbne⟩
      · intro hbnil hu hsemi
        rw [hbnil] at hps
        exact splitparams_stable r.path pa hps
    · have hcond' :
          ¬((decide (r.scheme ∈ USES_PARAMS) && decide (';' ∈ r.path)) = true) := by
        intro hc
        exact hcond ⟨of_decide_eq_true (Bool.and_eq_true_iff.mp hc).1,
          of_decide_eq_true (Bool.and_eq_true_iff.mp hc).2⟩
      rw [if_neg hcond'] at h
      injection h with h'
      subst h'
      dsimp only at hne hsne ⊢
      obtain ⟨hd, hok, hhead⟩ := hnlfacts hne
      have hshape : ∃ c0 srest, r.scheme = c0 :: srest ∧ isAsciiAlpha c0 = true ∧
          srest.all schemeChar = true ∧ lowerStr r.scheme = r.scheme := by
        rcases hscheme with hnil | hshape
        · exact absurd hnil hsne
        · exact hshape
      refine ⟨hshape, hd, hok, hhead, hrpq, hrph, fun hm => absurd hm (by simp),
        fun hm => absurd hm (by simp), hrqh, hrs_safe, hrn_safe, hrp_safe,
        fun c hc => absurd hc (List.not_mem_nil c), hrq_safe, hrf_safe,
        fun hbne => absurd rfl hbne,
        fun _ hu hsemi => absurd ⟨hu, hsemi⟩ hcond⟩

/-! #### Idempotence of `normalize_url` on trim-stable outputs -/

theorem normalize_url_eq (raw0 : Str) :
    normalize_url raw0 =
      match urlparseE (pyTrim raw0) with
      | .error _ => pyTrim raw0
      | .ok p =>
        if p.scheme = [] || p.netloc = [] then pyTrim raw0
        else
          urlunparse
            (if p.scheme = str "http" || p.scheme = str "https" then str "https"
             else p.scheme)
            p.netloc p.path p.params
            (urlencode ((parse_qsl true p.query).filter fun kv =>
              !(kv.1 ∈ DROP_QUERY_KEYS : Bool)))
            p.fragment := rfl

theorem alwaysSafe_not_unsafe (c : Char) (h : isAlwaysSafe c = true) :
    c ∉ UNSAFE_CHARS := by
  intro hun
  simp only [UNSAFE_CHARS, List.mem_cons, List.not_mem_nil, or_false] at hun
  rcases hun with he | he | he <;>
    { rw [he] at h; exact absurd h (by decide) }

theorem urlencode_not_unsafe (q : List (Str × Str)) :
    ∀ c ∈ urlencode q, c ∉ UNSAFE_CHARS := by
  intro c hc
  rcases urlencode_chars q c hc with h1 | h1 | h1 | h1 | h1
  · exact alwaysSafe_not_unsafe c h1
  all_goals { rw [h1]; decide }

/-- Claim C4 (amended): `normalize_url` is idempotent on every input whose
normalized form is stable under the function's own leading trim
(`strip()` + `rstrip(').,]>"\'')`); the unconditional statement is refuted by
`normalize_url_not_idempotent`. -/
theorem normalize_url_idem (x : Str)
    (h : pyTrim (normalize_url x) = normalize_url x) :
    normalize_url (normalize_url x) = normalize_url x := by
  cases hp : urlparseE (pyTrim x) with
  | error e =>
    have hx : normalize_url x = pyTrim x := by
      rw [normalize_url_eq, hp]
    rw [hx] at h ⊢
    rw [normalize_url_eq, h, hp]
  | ok p =>
    by_cases hsn : p.scheme = [] ∨ p.netloc = []
    · have hx : normalize_url x = pyTrim x := by
        rw [normalize_url_eq, hp]
        dsimp only
        rw [if_pos (by rcases hsn with h1 | h1 <;> simp [h1])]
      rw [hx] at h ⊢
      rw [normalize_url_eq, h, hp]
      dsimp only
      rw [if_pos (by rcases hsn with h1 | h1 <;> simp [h1])]
    · have hs_ne : p.scheme ≠ [] := fun hc => hsn (Or.inl hc)
      have hn_ne : p.netloc ≠ [] := fun hc => hsn (Or.inr hc)
      have hx : normalize_url x =
          urlunparse
            (if p.scheme = str "http" || p.scheme = str "https" then str "https"
             else p.scheme)
            p.netloc p.path p.params
            (urlencode ((parse_qsl true p.query).filter fun kv =>
              !(kv.1 ∈ DROP_QUERY_KEYS : Bool)))
            p.fragment := by
        rw [normalize_url_eq, hp]
        dsimp only
        rw [if_neg (by
          intro hc
          rcases Bool.or_eq_true_iff.mp hc with h1 | h1
          · exact hs_ne (of_decide_eq_true h1)
          · exact hn_ne (of_decide_eq_true h1))]
      obtain ⟨⟨c0, srest, hsh, ha1, ha2, hlow⟩, hd, hok, hhead, hpq, hph, hprq,
        hprh, hqh, hss, hns, hps, hprs, hqs, hfs, huses, hstab⟩ :=
        urlparseE_facts (pyTrim x) p hp hn_ne hs_ne
      have hqh' : '#' ∉ urlencode ((parse_qsl true p.query).filter fun kv =>
          !(kv.1 ∈ DROP_QUERY_KEYS : Bool)) :=
        not_mem_urlencode _ '#' (by decide) (by decide) (by decide) (by decide)
          (by decide)
      have hQsafe := urlencode_not_unsafe ((parse_qsl true p.query).filter fun kv =>
        !(kv.1 ∈ DROP_QUERY_KEYS : Bool))
      have hQQ : ((parse_qsl true p.query).filter fun kv =>
            !(kv.1 ∈ DROP_QUERY_KEYS : Bool)).filter (fun kv =>
            !(kv.1 ∈ DROP_QUERY_KEYS : Bool)) =
          (parse_qsl true p.query).filter fun kv =>
            !(kv.1 ∈ DROP_QUERY_KEYS : Bool) := by
        rw [List.filter_eq_self]
        intro kv hkv
        exact @List.of_mem_filter (Str × Str)
          (fun kv => !(decide (kv.1 ∈ DROP_QUERY_KEYS))) kv
          (parse_qsl true p.query) hkv
      by_cases hco : (p.scheme = str "http" || p.scheme = str "https") = true
      · rw [if_pos hco] at hx
        have hsmem : p.scheme ∈ USES_PARAMS := by
          rcases Bool.or_eq_true_iff.mp hco with h1 | h1
          · rw [of_decide_eq_true h1]; decide
          · rw [of_decide_eq_true h1]; decide
        have huses' : p.params ≠ [] → str "https" ∈ USES_PARAMS ∧
            p.path.head? = some '/' ∧
            splitparams (p.path ++ ';' :: p.params) = (p.path, p.params) :=
          fun hb => ⟨by decide, (huses hb).2.1, (huses hb).2.2⟩
        have hstab' : p.params = [] → str "https" ∈ USES_PARAMS →
            ';' ∈ p.path → splitparams p.path = (p.path, []) :=
          fun h1 _ h3 => hstab h1 hsmem h3
        rw [hx] at h ⊢
        rw [normalize_url_eq, h,
          urlparseE_unparse (str "https") _ _ _ _ _ 'h' (str "ttps") rfl (by decide)
            (by decide) (by decide) hn_ne hd hok hhead hpq hph hprq hprh hqh'
            (by decide) hns hps hprs hQsafe hfs huses' hstab']
        dsimp only
        rw [if_neg (by
          intro hc
          rcases Bool.or_eq_true_iff.mp hc with h1 | h1
          · exact absurd (of_decide_eq_true h1) (by decide)
          · exact hn_ne (of_decide_eq_true h1))]
        rw [if_pos (by decide), parse_qsl_urlencode, hQQ]
      · rw [if_neg hco] at hx
        rw [hx] at h ⊢
        rw [normalize_url_eq, h,
          urlparseE_unparse _ _ _ _ _ _ c0 srest hsh ha1 ha2 hlow hn_ne hd hok
            hhead hpq hph hprq hprh hqh' hss hns hps hprs hQsafe hfs huses hstab]
        dsimp only
        rw [if_neg (by
          intro hc
          rcases Bool.or_eq_true_iff.mp hc with h1 | h1
          · exact hs_ne (of_decide_eq_true h1)
          · exact hn_ne (of_decide_eq_true h1))]
        rw [if_neg hco, parse_qsl_urlencode, hQQ]

set_option maxHeartbeats 2000000 in
/-- Witness for the amended C4 at a URL exercising trimming, the scheme
coercion, params, and tracking-key removal: its normal form is trim-stable
and a second normalization is a no-op. -/
theorem normalize_url_idem_witness :
    pyTrim (normalize_url (str "http://Example.com/a;b?utm_source=x&id=7")) =
      normalize_url (str "http://Example.com/a;b?utm_source=x&id=7") ∧
    normalize_url
        (normalize_url (str "http://Example.com/a;b?utm_source=x&id=7")) =
      normalize_url (str "http://Example.com/a;b?utm_source=x&id=7") :=
  ⟨by decide, normalize_url_idem _ (by decide)⟩

end Feed
